import Mathlib

/-!
Shallow embedding of the timed-message plugin (src/main.py) for the claims
C1..C10.  Python datetimes are modelled as absolute seconds (Nat); the
UTC+8 shift is irrelevant to the claims since every time in a claim is
already a wall-clock instant.  The `isoformat`/`fromisoformat` pair is a
lossless encoding of a datetime, so the model stores the datetime value
itself and serializes it through the injective decimal rendering `natStr`.
Python float values produced by `float(...)` on the accepted inputs are
exact decimals; they are modelled as an integer mantissa with a power-of-ten
scale (`Dec`), and the two float comparisons of the scheduler are expressed
by the equivalent cross-multiplied integer comparisons.
-/

namespace Timtip

/-! ## Decimal rendering and parsing of integers (Python str/int on ids) -/

def digitToChar (d : Nat) : Char := Char.ofNat (48 + d)

def charToDigit (c : Char) : Option Nat :=
  if 48 ≤ c.toNat ∧ c.toNat ≤ 57 then some (c.toNat - 48) else none

def isDigitC (c : Char) : Bool := decide (48 ≤ c.toNat ∧ c.toNat ≤ 57)

def natStrAux : Nat → Nat → List Char
  | 0, _ => []
  | _ + 1, 0 => []
  | fuel + 1, n + 1 => natStrAux fuel ((n + 1) / 10) ++ [digitToChar ((n + 1) % 10)]

/-- Model of Python `str(n)` for a nonnegative integer `n`. -/
def natStr (n : Nat) : String := if n = 0 then "0" else String.mk (natStrAux n n)

/-- Model of Python `int(s)` restricted to the canonical digit strings the
plugin itself writes as task ids (no sign, no whitespace). -/
def decodeNat (s : String) : Option Nat :=
  match s.toList with
  | [] => none
  | l =>
    if l.all (fun c => (charToDigit c).isSome) then
      some (Nat.ofDigits 10 ((l.map (fun c => (charToDigit c).getD 0)).reverse))
    else none

/-! ## Whitespace stripping and Python float parsing -/

def isSpaceC (c : Char) : Bool := c = ' ' ∨ c = '\t' ∨ c = '\n' ∨ c = '\r'

/-- Model of Python `str.strip()` on the whitespace characters that matter. -/
def trimChars (l : List Char) : List Char :=
  ((l.dropWhile isSpaceC).reverse.dropWhile isSpaceC).reverse

/-- An exact decimal value `m / 10 ^ s`, the result of parsing a float. -/
structure Dec where
  m : Int
  s : Nat
deriving DecidableEq

def digitsVal (l : List Char) : Nat := l.foldl (fun a c => a * 10 + (c.toNat - 48)) 0

/-- Model of Python `float(s)` on plain decimal literals: optional sign,
digits with at most one point, surrounding whitespace stripped.  (Exponent
and inf/nan forms are not modelled; no claim exercises them.) -/
def parseFloat (s : String) : Option Dec :=
  let l := trimChars s.toList
  let sgn : Int := match l with
    | '-' :: _ => -1
    | _ => 1
  let l1 : List Char := match l with
    | '-' :: r => r
    | '+' :: r => r
    | r => r
  let ip := l1.takeWhile (· ≠ '.')
  let rest := l1.dropWhile (· ≠ '.')
  let fpOk : Option (List Char) := match rest with
    | [] => some []
    | _ :: fp => if '.' ∈ fp then none else some fp
  match fpOk with
  | none => none
  | some fp =>
    if ip.all isDigitC ∧ fp.all isDigitC ∧ (ip ≠ [] ∨ fp ≠ []) then
      some ⟨sgn * (digitsVal ip * 10 ^ fp.length + digitsVal fp), fp.length⟩
    else none

/-- The comparison `x ≥ f * 60` for a real `x` (an integer number of
seconds) and a parsed decimal `f`, cross-multiplied to integers. -/
def decMulSixtyLe (f : Dec) (x : Int) : Bool :=
  decide (f.m * 60 ≤ x * (10 : Int) ^ f.s)

/-! ## Fixed clock-time parsing (`parse_time` in src/main.py) -/

/-- Pattern `^(\d{1,2})时(\d{1,2})分$`. -/
def patCn (l : List Char) : Option (Nat × Nat) :=
  let p := l.span isDigitC
  if p.1.length = 1 ∨ p.1.length = 2 then
    match p.2 with
    | c :: r2 =>
      if c = '时' then
        let q := r2.span isDigitC
        if (q.1.length = 1 ∨ q.1.length = 2) ∧ q.2 = ['分'] then
          some (digitsVal p.1, digitsVal q.1)
        else none
      else none
    | [] => none
  else none

/-- Pattern `^(\d{2})(\d{2})$`. -/
def patCompact (l : List Char) : Option (Nat × Nat) :=
  if l.length = 4 ∧ l.all isDigitC then
    some (digitsVal (l.take 2), digitsVal (l.drop 2))
  else none

/-- Pattern `^(\d{1,2}):(\d{1,2})$`. -/
def patColon (l : List Char) : Option (Nat × Nat) :=
  let p := l.span isDigitC
  if p.1.length = 1 ∨ p.1.length = 2 then
    match p.2 with
    | c :: r2 =>
      if c = ':' then
        let q := r2.span isDigitC
        if (q.1.length = 1 ∨ q.1.length = 2) ∧ q.2 = [] then
          some (digitsVal p.1, digitsVal q.1)
        else none
      else none
    | [] => none
  else none

def rangeCheck (hm : Nat × Nat) : Option (Nat × Nat) :=
  if hm.1 < 24 ∧ hm.2 < 60 then some hm else none

/-- Model of `TimPlugin.parse_time`: the three regex patterns are tried in
order; the first one that matches fixes the outcome, and an out-of-range
hour or minute then raises (modelled as `none`). -/
def parse_time (s : String) : Option (Nat × Nat) :=
  let l := s.toList
  match patCn l with
  | some hm => rangeCheck hm
  | none =>
    match patCompact l with
    | some hm => rangeCheck hm
    | none =>
      match patColon l with
      | some hm => rangeCheck hm
      | none => none

/-! ## Calendar fields of a time instant (Python `now.day/hour/minute`) -/

def dtDay (t : Nat) : Nat := t / 86400

def dtHour (t : Nat) : Nat := t % 86400 / 3600

def dtMinute (t : Nat) : Nat := t % 86400 % 3600 / 60

/-! ## Data model: task records and the JSON-dict tables

Python dicts are modelled as insertion-ordered association lists; `getd`,
`setd`, `deld`, `modd` are membership lookup, `d[k] = v`, `del d[k]` and
in-place update of an existing entry. -/

structure TaskRec where
  type : String
  time : String
  status : String
  create_time : Nat
  last_run : Option Nat
  target : String
deriving DecidableEq

abbrev TaskDict := List (String × TaskRec)
abbrev TaskTable := List (String × TaskDict)
abbrev InfoDict := List (String × String)
abbrev InfoTable := List (String × InfoDict)

def getd {α : Type} : List (String × α) → String → Option α
  | [], _ => none
  | (k, v) :: r, key => if k = key then some v else getd r key

def setd {α : Type} : List (String × α) → String → α → List (String × α)
  | [], key, v => [(key, v)]
  | (k, w) :: r, key, v => if k = key then (k, v) :: r else (k, w) :: setd r key v

def deld {α : Type} : List (String × α) → String → List (String × α)
  | [], _ => []
  | (k, w) :: r, key => if k = key then r else (k, w) :: deld r key

def modd {α : Type} : List (String × α) → String → (α → α) → List (String × α)
  | [], _, _ => []
  | (k, w) :: r, key, f => if k = key then (k, f w) :: r else (k, w) :: modd r key f

/-- Model of `del self.infos[umo][tid]` guarded by the two membership tests. -/
def delInfo : InfoTable → String → String → InfoTable
  | [], _, _ => []
  | (k, d) :: r, umo, tid =>
    if k = umo then (k, deld d tid) :: r else (k, d) :: delInfo r umo tid

/-- Model of `self.session_events[umo] = event`: the set of sessions having
a stored event context (the event object itself is irrelevant to dispatch
beyond the session it can reach). -/
def addEvent (l : List String) (umo : String) : List String :=
  if umo ∈ l then l else l ++ [umo]

/-! ## Scheduler state and the per-second tick (`scheduler_loop`) -/

structure SchedState where
  tasks : TaskTable
  infos : InfoTable
  session_events : List String
  executed_tasks : List String
  last_day : Nat
  next_id : Nat
deriving DecidableEq

/-- A dispatch attempt record: session, task id, and the content actually
delivered (`none` when nothing was sent: empty content, missing event
context, or an adapter error that `send_task_message` caught). -/
abbrev Disp := String × String × Option String

/-- Model of `send_task_message`: the content is re-read from the info
table, empty content and a missing event context abort the send, and an
adapter failure (`event.send` raising) is caught, so the caller never sees
an exception.  The result is what was delivered, `none` if nothing was. -/
def send_task_message (infos : InfoTable) (evs : List String)
    (adapterOk : String → Bool) (umo tid : String) : Option String :=
  let content := match getd infos umo with
    | none => ""
    | some d => (getd d tid).getD ""
  if content = "" then none
  else if umo ∈ evs then
    (if adapterOk umo then some content else none)
  else none

/-- The interval trigger: due when `last_run` is absent or
`(now - last_run).total_seconds() >= interval * 60`. -/
def intervalDue (lastRun : Option Nat) (now : Nat) (iv : Dec) : Bool :=
  match lastRun with
  | none => true
  | some lr => decMulSixtyLe iv ((now : Int) - (lr : Int))

/-- The once trigger: due when `now >= create_time + timedelta(minutes=delay)`. -/
def onceDue (createTime now : Nat) (delay : Dec) : Bool :=
  decMulSixtyLe delay ((now : Int) - (createTime : Int))

/-- The dedupe marker string built for a fixed task. -/
def execId (umo tid : String) (day hour minute : Nat) : String :=
  umo ++ "_" ++ tid ++ "_" ++ natStr day ++ "_" ++ natStr hour ++ "_" ++ natStr minute

/-- Accumulator of the inner task loop of `scheduler_loop`: the rebuilt
task dict of the current session, plus the threaded executed-marker set,
info table and dispatch log. -/
structure ProcAcc where
  kept : TaskDict
  executed : List String
  infos : InfoTable
  disps : List Disp
deriving DecidableEq

/-- One iteration of the inner task loop of `scheduler_loop` on a single
`(tid, task)` entry of a session dict. -/
def procEntry (adapterOk : String → Bool) (evs : List String) (now cd : Nat)
    (umo : String) (acc : ProcAcc) (e : String × TaskRec) : ProcAcc :=
  let tid := e.1
  let task := e.2
  if task.status ≠ "active" then
    { acc with kept := acc.kept ++ [(tid, task)] }
  else if task.type = "interval" then
    match parseFloat task.time with
    | none => { acc with kept := acc.kept ++ [(tid, task)] }
    | some iv =>
      if intervalDue task.last_run now iv then
        { acc with
            kept := acc.kept ++ [(tid, { task with last_run := some now })],
            disps := acc.disps ++ [(umo, tid, send_task_message acc.infos evs adapterOk umo tid)] }
      else { acc with kept := acc.kept ++ [(tid, task)] }
  else if task.type = "once" then
    match parseFloat task.time with
    | none => { acc with kept := acc.kept ++ [(tid, task)] }
    | some dl =>
      if onceDue task.create_time now dl then
        { acc with
            infos := delInfo acc.infos umo tid,
            disps := acc.disps ++ [(umo, tid, send_task_message acc.infos evs adapterOk umo tid)] }
      else { acc with kept := acc.kept ++ [(tid, task)] }
  else if task.type = "fixed" then
    match parse_time task.time with
    | none => { acc with kept := acc.kept ++ [(tid, task)] }
    | some hm =>
      let eid := execId umo tid cd hm.1 hm.2
      if dtHour now = hm.1 ∧ dtMinute now = hm.2 ∧ eid ∉ acc.executed then
        { acc with
            kept := acc.kept ++ [(tid, { task with last_run := some now })],
            executed := acc.executed ++ [eid],
            disps := acc.disps ++ [(umo, tid, send_task_message acc.infos evs adapterOk umo tid)] }
      else { acc with kept := acc.kept ++ [(tid, task)] }
  else { acc with kept := acc.kept ++ [(tid, task)] }

/-- The whole inner task loop over one session dict. -/
def sessionStep (adapterOk : String → Bool) (evs : List String) (now cd : Nat)
    (umo : String) (executed : List String) (infos : InfoTable) (d : TaskDict) : ProcAcc :=
  d.foldl (procEntry adapterOk evs now cd umo) ⟨[], executed, infos, []⟩

structure TickAcc where
  table : TaskTable
  executed : List String
  infos : InfoTable
  disps : List Disp
deriving DecidableEq

def tickStep (adapterOk : String → Bool) (evs : List String) (now cd : Nat)
    (a : TickAcc) (s : String × TaskDict) : TickAcc :=
  let r := sessionStep adapterOk evs now cd s.1 a.executed a.infos s.2
  ⟨a.table ++ [(s.1, r.kept)], r.executed, r.infos, a.disps ++ r.disps⟩

/-- One tick of `scheduler_loop`: clear the fixed-task dedupe set if the
calendar day advanced, then evaluate every task of every session, and
return the new state together with the tick dispatch log.  (The per-tick
`save_json` is pure I/O and has no effect on the state.) -/
def tick (adapterOk : String → Bool) (st : SchedState) (now : Nat) :
    SchedState × List Disp :=
  let cd := dtDay now
  let ex0 := if cd ≠ st.last_day then [] else st.executed_tasks
  let ld := if cd ≠ st.last_day then cd else st.last_day
  let a := st.tasks.foldl (tickStep adapterOk st.session_events now cd)
    ⟨[], ex0, st.infos, []⟩
  (⟨a.table, a.infos, st.session_events, a.executed, ld, st.next_id⟩, a.disps)

/-- A run of consecutive ticks at the given instants, concatenating the
dispatch logs. -/
def runTicks (adapterOk : String → Bool) (st : SchedState) (ts : List Nat) :
    SchedState × List Disp :=
  ts.foldl (fun p t => let r := tick adapterOk p.1 t; (r.1, p.2 ++ r.2)) (st, [])

/-- The dispatch-log entries belonging to one `(session, id)` pair. -/
def dispsFor (l : List Disp) (umo tid : String) : List (Option String) :=
  l.filterMap (fun d => if d.1 = umo ∧ d.2.1 = tid then some d.2.2 else none)

/-- Lookup of a task by `(session, id)`; `none` is the NotFound outcome the
command surface reports. -/
def taskLookup (st : SchedState) (umo tid : String) : Option TaskRec :=
  match getd st.tasks umo with
  | none => none
  | some d => getd d tid

/-! ## Command-surface operations (the state-relevant part of each) -/

/-- Model of `set_timing`: validation in source order (empty type, empty
time, per-kind parse), then allocation of the next global id and storage of
the task with status `active`; the second component is the allocated id,
`none` when validation failed (the user sees an error text and no state
changes). -/
def registerTask (st : SchedState) (umo task_type time_value content : String)
    (now : Nat) : SchedState × Option String :=
  let evs := addEvent st.session_events umo
  let tasks1 := if (getd st.tasks umo).isSome then st.tasks else st.tasks ++ [(umo, [])]
  let infos1 := if (getd st.infos umo).isSome then st.infos else st.infos ++ [(umo, [])]
  let td : TaskRec :=
    { type := task_type, time := time_value, status := "active",
      create_time := now, last_run := none, target := umo }
  let tid := natStr st.next_id
  let tasks2 := modd tasks1 umo (fun d => setd d tid td)
  let infos2 := modd infos1 umo (fun d => setd d tid content)
  (⟨tasks2, infos2, evs, st.executed_tasks, st.last_day, st.next_id + 1⟩, some tid)

def set_timing (st : SchedState) (umo task_type time_value content : String)
    (now : Nat) : SchedState × Option String :=
  if trimChars task_type.toList = [] then (st, none)
  else if trimChars time_value.toList = [] then (st, none)
  else if task_type = "fixed" then
    match parse_time time_value with
    | none => (st, none)
    | some _ => registerTask st umo task_type time_value content now
  else if task_type = "interval" ∨ task_type = "once" then
    match parseFloat time_value with
    | none => (st, none)
    | some _ => registerTask st umo task_type time_value content now
  else (st, none)

/-- Model of `pause_task`; the Bool is whether the task was found. -/
def pause_task (st : SchedState) (umo : String) (task_id : Nat) : SchedState × Bool :=
  let tid := natStr task_id
  let evs := addEvent st.session_events umo
  match getd st.tasks umo with
  | some d =>
    if (getd d tid).isSome then
      ({ st with
          tasks := modd st.tasks umo (fun d2 => modd d2 tid (fun t => { t with status := "paused" })),
          session_events := evs }, true)
    else ({ st with session_events := evs }, false)
  | none => ({ st with session_events := evs }, false)

/-- Model of `enable_task`; the Bool is whether the task was found. -/
def enable_task (st : SchedState) (umo : String) (task_id : Nat) : SchedState × Bool :=
  let tid := natStr task_id
  let evs := addEvent st.session_events umo
  match getd st.tasks umo with
  | some d =>
    if (getd d tid).isSome then
      ({ st with
          tasks := modd st.tasks umo (fun d2 => modd d2 tid (fun t => { t with status := "active" })),
          session_events := evs }, true)
    else ({ st with session_events := evs }, false)
  | none => ({ st with session_events := evs }, false)

/-- Model of `cancel_task`; the Bool is whether the task was found. -/
def cancel_task (st : SchedState) (umo : String) (task_id : Nat) : SchedState × Bool :=
  let tid := natStr task_id
  let evs := addEvent st.session_events umo
  match getd st.tasks umo with
  | some d =>
    if (getd d tid).isSome then
      ({ st with
          tasks := modd st.tasks umo (fun d2 => deld d2 tid),
          infos := delInfo st.infos umo tid,
          session_events := evs }, true)
    else ({ st with session_events := evs }, false)
  | none => ({ st with session_events := evs }, false)

/-- Model of `edit_info`; the Bool is whether the task was found. -/
def edit_info (st : SchedState) (umo : String) (task_id : Nat) (newContent : String) :
    SchedState × Bool :=
  let tid := natStr task_id
  let evs := addEvent st.session_events umo
  if (taskLookup st umo tid).isSome then
    let infos1 := if (getd st.infos umo).isSome then st.infos else st.infos ++ [(umo, [])]
    ({ st with infos := modd infos1 umo (fun d => setd d tid newContent),
               session_events := evs }, true)
  else ({ st with session_events := evs }, false)

/-- Model of `clear_content` (it tests membership in the info table, not
the task table); the Bool is whether the entry was found. -/
def clear_content (st : SchedState) (umo : String) (task_id : Nat) : SchedState × Bool :=
  let tid := natStr task_id
  let evs := addEvent st.session_events umo
  match getd st.infos umo with
  | some d =>
    if (getd d tid).isSome then
      ({ st with infos := modd st.infos umo (fun d2 => setd d2 tid ""),
                 session_events := evs }, true)
    else ({ st with session_events := evs }, false)
  | none => ({ st with session_events := evs }, false)

/-- Model of the id-counter scan in `__init__`: starting from 1, every task
id that parses as an integer bumps the counter to id + 1 when it is at
least the current counter; unparseable ids are skipped. -/
def initNextId (tbl : TaskTable) : Nat :=
  tbl.foldl (fun acc s =>
    s.2.foldl (fun a e =>
      match decodeNat e.1 with
      | some n => if a ≤ n then n + 1 else a
      | none => a) acc) 1

/-- The plugin state right after `__init__` on a loaded table (empty dedupe
set, observed day of the start instant). -/
def initState (tbl : TaskTable) (itbl : InfoTable) (startDay : Nat) : SchedState :=
  ⟨tbl, itbl, [], [], startDay, initNextId tbl⟩

/-- The operations that can touch the state, for stating whole-system
invariants. -/
inductive Op where
  | tickOp (adapterOk : String → Bool) (now : Nat)
  | registerOp (umo task_type time_value content : String) (now : Nat)
  | cancelOp (umo : String) (id : Nat)
  | pauseOp (umo : String) (id : Nat)
  | enableOp (umo : String) (id : Nat)
  | editOp (umo : String) (id : Nat) (content : String)
  | clearOp (umo : String) (id : Nat)

def applyOp (st : SchedState) : Op → SchedState
  | .tickOp ok now => (tick ok st now).1
  | .registerOp umo tt tv c now => (set_timing st umo tt tv c now).1
  | .cancelOp umo i => (cancel_task st umo i).1
  | .pauseOp umo i => (pause_task st umo i).1
  | .enableOp umo i => (enable_task st umo i).1
  | .editOp umo i c => (edit_info st umo i c).1
  | .clearOp umo i => (clear_content st umo i).1

/-! ## Persistence: the JSON documents written by `save_json` and read back
by `load_json`.  A task's datetime fields are serialized through the
injective decimal rendering standing for `isoformat`. -/

inductive Json where
  | null : Json
  | str : String → Json
  | obj : List (String × Json) → Json

def taskToJson (t : TaskRec) : Json :=
  .obj [("type", .str t.type), ("time", .str t.time), ("status", .str t.status),
        ("create_time", .str (natStr t.create_time)),
        ("last_run", match t.last_run with | none => .null | some lr => .str (natStr lr)),
        ("target", .str t.target)]

def jsonToTask (j : Json) : Option TaskRec :=
  match j with
  | .obj [("type", .str a), ("time", .str b), ("status", .str c),
          ("create_time", .str d), ("last_run", lr), ("target", .str f)] =>
    match decodeNat d, lr with
    | some ct, .null => some ⟨a, b, c, ct, none, f⟩
    | some ct, .str s => (decodeNat s).map (fun n => ⟨a, b, c, ct, some n, f⟩)
    | _, _ => none
  | _ => none

def taskDictToJson (d : TaskDict) : Json := .obj (d.map (fun e => (e.1, taskToJson e.2)))

def decodeTaskEntries : List (String × Json) → Option TaskDict
  | [] => some []
  | e :: r =>
    match jsonToTask e.2, decodeTaskEntries r with
    | some t, some d => some ((e.1, t) :: d)
    | _, _ => none

def jsonToTaskDict (j : Json) : Option TaskDict :=
  match j with
  | .obj l => decodeTaskEntries l
  | _ => none

def decodeTableEntries : List (String × Json) → Option TaskTable
  | [] => some []
  | e :: r =>
    match jsonToTaskDict e.2, decodeTableEntries r with
    | some d, some t => some ((e.1, d) :: t)
    | _, _ => none

/-- Model of `save_json(self.tasks, TIM_FILE)`: the JSON document written. -/
def save_tasks_json (tbl : TaskTable) : Json :=
  .obj (tbl.map (fun e => (e.1, taskDictToJson e.2)))

/-- Model of `load_json(TIM_FILE)` on a document: a table, `{}` when the
document does not decode (missing or corrupt file). -/
def load_tasks_json (j : Json) : TaskTable :=
  match j with
  | .obj l => (decodeTableEntries l).getD []
  | _ => []

def infoDictToJson (d : InfoDict) : Json := .obj (d.map (fun e => (e.1, .str e.2)))

def decodeInfoEntries : List (String × Json) → Option InfoDict
  | [] => some []
  | e :: r =>
    match e.2, decodeInfoEntries r with
    | .str s, some d => some ((e.1, s) :: d)
    | _, _ => none

def jsonToInfoDict (j : Json) : Option InfoDict :=
  match j with
  | .obj l => decodeInfoEntries l
  | _ => none

def decodeInfoTableEntries : List (String × Json) → Option InfoTable
  | [] => some []
  | e :: r =>
    match jsonToInfoDict e.2, decodeInfoTableEntries r with
    | some d, some t => some ((e.1, d) :: t)
    | _, _ => none

/-- Model of `save_json(self.infos, INFO_FILE)`. -/
def save_infos_json (tbl : InfoTable) : Json :=
  .obj (tbl.map (fun e => (e.1, infoDictToJson e.2)))

/-- Model of `load_json(INFO_FILE)` on a document. -/
def load_infos_json (j : Json) : InfoTable :=
  match j with
  | .obj l => (decodeInfoTableEntries l).getD []
  | _ => []

/-- The real value a parsed decimal stands for. -/
def realOf (f : Dec) : ℚ := (f.m : ℚ) / 10 ^ f.s

/-! ## Concrete fixtures for the spec scenarios -/

def adapterAll : String → Bool := fun _ => true

def c1Task : TaskRec := ⟨"interval", "5", "active", 0, none, "s1"⟩

def c1State : SchedState :=
  ⟨[("s1", [("1", c1Task)])], [("s1", [("1", "hi")])], ["s1"], [], 0, 2⟩

def c2Task : TaskRec := ⟨"fixed", "20:30", "active", 0, none, "s2"⟩

def c2State : SchedState :=
  ⟨[("s2", [("1", c2Task)])], [("s2", [("1", "go")])], ["s2"], [], 100, 2⟩

def c2t : Nat := 100 * 86400 + 20 * 3600 + 30 * 60

def c3Task : TaskRec := ⟨"once", "10", "active", 50, none, "s3"⟩

def c3State : SchedState :=
  ⟨[("s3", [("7", c3Task)])], [("s3", [("7", "later")])], ["s3"], [], 0, 8⟩

def c10State : SchedState :=
  ⟨[("s1", [("1", c1Task)])], [("s1", [("1", "hi")])], [], [], 0, 2⟩

def c6State : SchedState :=
  ⟨[("s1", [("1", { c1Task with status := "paused" })])],
   [("s1", [("1", "hi")])], ["s1"], [], 0, 2⟩

def c9State : SchedState :=
  ⟨[("s1", [("1", c1Task)])], [("s1", [("1", "")])], ["s1"], [], 0, 2⟩

/-- All integer-parsing task ids of a table, in table order. -/
def tableIds (tbl : TaskTable) : List Nat :=
  (tbl.map (fun s => s.2.filterMap (fun e => decodeNat e.1))).join

/-- The id-counter invariant: every stored id is below the counter. -/
def idInv (st : SchedState) : Prop :=
  ∀ p ∈ st.tasks, ∀ q ∈ p.2, ∀ n, decodeNat q.1 = some n → n < st.next_id

/-! ## Lemmas about the association-list dictionary operations -/

theorem getd_mem {α : Type} {l : List (String × α)} {k : String} {v : α}
    (h : getd l k = some v) : (k, v) ∈ l := by
  induction l with
  | nil => simp [getd] at h
  | cons p r ih =>
    obtain ⟨k1, v1⟩ := p
    by_cases hk : k1 = k
    · subst hk
      simp [getd] at h
      subst h
      exact List.mem_cons_self _ _
    · simp [getd, hk] at h
      exact List.mem_cons_of_mem _ (ih h)

theorem getd_eq_none {α : Type} {l : List (String × α)} {k : String}
    (h : k ∉ l.map Prod.fst) : getd l k = none := by
  induction l with
  | nil => rfl
  | cons p r ih =>
    obtain ⟨k1, v1⟩ := p
    simp only [List.map_cons, List.mem_cons] at h
    push_neg at h
    simp only [getd]
    rw [if_neg (fun hh : k1 = k => h.1 hh.symm), ih h.2]

theorem mem_keys_of_getd {α : Type} {l : List (String × α)} {k : String} {v : α}
    (h : getd l k = some v) : k ∈ l.map Prod.fst := by
  by_contra hk
  rw [getd_eq_none hk] at h
  exact Option.noConfusion h

theorem getd_append {α : Type} (l₁ l₂ : List (String × α)) (k : String) :
    getd (l₁ ++ l₂) k = match getd l₁ k with
      | some v => some v
      | none => getd l₂ k := by
  induction l₁ with
  | nil => simp [getd]
  | cons p r ih =>
    by_cases hk : p.1 = k
    · simp [getd, hk]
    · simpa [getd, hk] using ih

theorem getd_append_left {α : Type} {l₁ : List (String × α)} (l₂ : List (String × α))
    {k : String} (h : k ∉ l₁.map Prod.fst) : getd (l₁ ++ l₂) k = getd l₂ k := by
  rw [getd_append, getd_eq_none h]

theorem getd_cons_self {α : Type} {l : List (String × α)} {k : String} {v : α} :
    getd ((k, v) :: l) k = some v := by simp [getd]

theorem getd_split {α : Type} {l : List (String × α)} {k : String} {v : α}
    (hnd : (l.map Prod.fst).Nodup) (h : getd l k = some v) :
    ∃ l₁ l₂, l = l₁ ++ (k, v) :: l₂ ∧ k ∉ l₁.map Prod.fst ∧ k ∉ l₂.map Prod.fst := by
  induction l with
  | nil => simp [getd] at h
  | cons p r ih =>
    obtain ⟨k1, v1⟩ := p
    simp only [List.map_cons, List.nodup_cons] at hnd
    by_cases hk : k1 = k
    · subst hk
      simp [getd] at h
      subst h
      exact ⟨[], r, rfl, by simp, hnd.1⟩
    · simp [getd, hk] at h
      obtain ⟨l₁, l₂, h1, h2, h3⟩ := ih hnd.2 h
      refine ⟨(k1, v1) :: l₁, l₂, by simp [h1], ?_, h3⟩
      simp only [List.map_cons, List.mem_cons]
      push_neg
      exact ⟨fun hh => hk hh.symm, h2⟩

theorem mem_deld {α : Type} {l : List (String × α)} {k : String} {x : String × α}
    (h : x ∈ deld l k) : x ∈ l := by
  induction l with
  | nil => simp [deld] at h
  | cons p r ih =>
    obtain ⟨k1, v1⟩ := p
    by_cases hk : k1 = k
    · simp [deld, hk] at h
      exact List.mem_cons_of_mem _ h
    · simp [deld, hk] at h
      rcases h with h | h
      · simp [h]
      · exact List.mem_cons_of_mem _ (ih h)

theorem keys_deld_sublist {α : Type} (l : List (String × α)) (k : String) :
    ((deld l k).map Prod.fst).Sublist (l.map Prod.fst) := by
  induction l with
  | nil => simp [deld]
  | cons p r ih =>
    obtain ⟨k1, v1⟩ := p
    by_cases hk : k1 = k
    · have h1 : deld ((k1, v1) :: r) k = r := by simp [deld, hk]
      rw [h1]
      simp only [List.map_cons]
      exact List.Sublist.cons k1 (List.Sublist.refl _)
    · simpa [deld, hk] using List.Sublist.cons₂ k1 ih

theorem getd_deld_ne {α : Type} {l : List (String × α)} {k k2 : String}
    (h : k ≠ k2) : getd (deld l k2) k = getd l k := by
  induction l with
  | nil => rfl
  | cons p r ih =>
    obtain ⟨k1, v1⟩ := p
    simp only [deld, getd]
    by_cases hk : k1 = k2
    · have hk1 : k1 ≠ k := fun hh => h (hh ▸ hk)
      rw [if_pos hk, if_neg hk1]
    · rw [if_neg hk]
      by_cases hk2 : k1 = k
      · simp only [getd, if_pos hk2]
      · simp only [getd, if_neg hk2, ih]

theorem getd_deld_self {α : Type} {l : List (String × α)} {k : String}
    (hnd : (l.map Prod.fst).Nodup) : getd (deld l k) k = none := by
  induction l with
  | nil => rfl
  | cons p r ih =>
    obtain ⟨k1, v1⟩ := p
    simp only [List.map_cons, List.nodup_cons] at hnd
    by_cases hk : k1 = k
    · have h1 : deld ((k1, v1) :: r) k = r := by simp [deld, hk]
      rw [h1]
      exact getd_eq_none (hk ▸ hnd.1)
    · simp [deld, hk, getd, hk, ih hnd.2]

theorem getd_setd_self {α : Type} (l : List (String × α)) (k : String) (v : α) :
    getd (setd l k v) k = some v := by
  induction l with
  | nil => simp [setd, getd]
  | cons p r ih =>
    obtain ⟨k1, v1⟩ := p
    by_cases hk : k1 = k
    · simp [setd, hk, getd]
    · simp [setd, hk, getd, ih]

theorem getd_setd_ne {α : Type} {l : List (String × α)} {k k2 : String} (v : α)
    (h : k ≠ k2) : getd (setd l k2 v) k = getd l k := by
  induction l with
  | nil =>
    simp only [setd, getd]
    rw [if_neg (fun hh : k2 = k => h hh.symm)]
  | cons p r ih =>
    obtain ⟨k1, v1⟩ := p
    simp only [setd, getd]
    by_cases hk : k1 = k2
    · have hk1 : k1 ≠ k := fun hh => h (hh ▸ hk)
      rw [if_pos hk]
      simp only [getd, if_neg hk1]
    · rw [if_neg hk]
      by_cases hk2 : k1 = k
      · simp only [getd, if_pos hk2]
      · simp only [getd, if_neg hk2, ih]

theorem mem_setd {α : Type} {l : List (String × α)} {k : String} {v : α} {x : String × α}
    (h : x ∈ setd l k v) : x ∈ l ∨ x = (k, v) := by
  induction l with
  | nil => simp [setd] at h; simp [h]
  | cons p r ih =>
    obtain ⟨k1, v1⟩ := p
    by_cases hk : k1 = k
    · subst hk
      simp [setd] at h
      rcases h with h | h
      · simp [h]
      · simp [h]
    · simp [setd, hk] at h
      rcases h with h | h
      · simp [h]
      · rcases ih h with h2 | h2
        · exact Or.inl (List.mem_cons_of_mem _ h2)
        · exact Or.inr h2

theorem getd_modd_self {α : Type} {l : List (String × α)} {k : String} {v : α}
    (f : α → α) (h : getd l k = some v) : getd (modd l k f) k = some (f v) := by
  induction l with
  | nil => simp [getd] at h
  | cons p r ih =>
    obtain ⟨k1, v1⟩ := p
    by_cases hk : k1 = k
    · subst hk
      simp [getd] at h
      subst h
      simp [modd, getd]
    · simp [getd, hk] at h
      simp [modd, hk, getd, ih h]

theorem getd_modd_ne {α : Type} {l : List (String × α)} {k k2 : String}
    (f : α → α) (h : k ≠ k2) : getd (modd l k2 f) k = getd l k := by
  induction l with
  | nil => rfl
  | cons p r ih =>
    obtain ⟨k1, v1⟩ := p
    simp only [modd, getd]
    by_cases hk : k1 = k2
    · have hk1 : k1 ≠ k := fun hh => h (hh ▸ hk)
      rw [if_pos hk]
      simp only [getd, if_neg hk1]
    · rw [if_neg hk]
      by_cases hk2 : k1 = k
      · simp only [getd, if_pos hk2]
      · simp only [getd, if_neg hk2, ih]

theorem mem_modd {α : Type} {l : List (String × α)} {k : String} {f : α → α}
    {x : String × α} (h : x ∈ modd l k f) :
    x ∈ l ∨ ∃ v, (k, v) ∈ l ∧ x = (k, f v) := by
  induction l with
  | nil => simp [modd] at h
  | cons p r ih =>
    obtain ⟨k1, v1⟩ := p
    by_cases hk : k1 = k
    · subst hk
      simp [modd] at h
      rcases h with h | h
      · exact Or.inr ⟨v1, List.mem_cons_self _ _, h⟩
      · exact Or.inl (List.mem_cons_of_mem _ h)
    · simp [modd, hk] at h
      rcases h with h | h
      · simp [h]
      · rcases ih h with h2 | ⟨v, hv, hx⟩
        · exact Or.inl (List.mem_cons_of_mem _ h2)
        · exact Or.inr ⟨v, List.mem_cons_of_mem _ hv, hx⟩

theorem getd_delInfo_self {infos : InfoTable} {umo : String} (tid : String) :
    getd (delInfo infos umo tid) umo = (getd infos umo).map (fun d => deld d tid) := by
  induction infos with
  | nil => rfl
  | cons p r ih =>
    obtain ⟨k1, v1⟩ := p
    by_cases hk : k1 = umo
    · simp [delInfo, hk, getd]
    · simp [delInfo, hk, getd, ih]

theorem getd_delInfo_ne {infos : InfoTable} {u umo : String} (tid : String)
    (h : u ≠ umo) : getd (delInfo infos umo tid) u = getd infos u := by
  induction infos with
  | nil => rfl
  | cons p r ih =>
    obtain ⟨k1, v1⟩ := p
    simp only [delInfo, getd]
    by_cases hk : k1 = umo
    · have hk1 : k1 ≠ u := fun hh => h (hh ▸ hk)
      rw [if_pos hk]
      simp only [getd, if_neg hk1]
    · rw [if_neg hk]
      by_cases hk2 : k1 = u
      · simp only [getd, if_pos hk2]
      · simp only [getd, if_neg hk2, ih]

/-! ## Lemmas about decimal rendering (`natStr`) and parsing (`decodeNat`) -/

theorem charToDigit_digitToChar : ∀ d : Nat, d < 10 → charToDigit (digitToChar d) = some d := by
  decide

theorem natStrAux_eq_digits : ∀ (fuel n : Nat), n ≤ fuel →
    natStrAux fuel n = ((Nat.digits 10 n).map digitToChar).reverse := by
  intro fuel
  induction fuel with
  | zero =>
    intro n hn
    interval_cases n
    simp [natStrAux]
  | succ f ih =>
    intro n hn
    match n with
    | 0 => simp [natStrAux]
    | n + 1 =>
      have hd : Nat.digits 10 (n + 1) = (n + 1) % 10 :: Nat.digits 10 ((n + 1) / 10) :=
        Nat.digits_def' (by norm_num) (Nat.succ_pos n)
      have hdiv : (n + 1) / 10 ≤ f := by
        have h1 : (n + 1) / 10 < n + 1 := Nat.div_lt_self (Nat.succ_pos n) (by norm_num)
        omega
      rw [natStrAux, ih _ hdiv, hd]
      simp

theorem decodeNat_natStr (n : Nat) : decodeNat (natStr n) = some n := by
  by_cases h0 : n = 0
  · subst h0
    rfl
  · have hpos : 0 < n := Nat.pos_of_ne_zero h0
    have hstr : natStr n = String.mk (((Nat.digits 10 n).map digitToChar).reverse) := by
      rw [natStr, if_neg h0, natStrAux_eq_digits n n le_rfl]
    have hlist : (natStr n).toList = ((Nat.digits 10 n).map digitToChar).reverse := by
      rw [hstr]
      rfl
    have hne : ((Nat.digits 10 n).map digitToChar).reverse ≠ [] := by
      simp [Nat.digits_ne_nil_iff_ne_zero.2 h0]
    have hlt : ∀ d ∈ Nat.digits 10 n, d < 10 := fun d hd => Nat.digits_lt_base (by norm_num) hd
    have hall : (((Nat.digits 10 n).map digitToChar).reverse).all
        (fun c => (charToDigit c).isSome) = true := by
      rw [List.all_eq_true]
      intro c hc
      rw [List.mem_reverse, List.mem_map] at hc
      obtain ⟨d, hd, rfl⟩ := hc
      rw [charToDigit_digitToChar d (hlt d hd)]
      rfl
    have hmap : (((Nat.digits 10 n).map digitToChar).reverse.map
        (fun c => (charToDigit c).getD 0)).reverse = Nat.digits 10 n := by
      rw [← List.map_reverse, List.reverse_reverse, List.map_map]
      have : ∀ d ∈ Nat.digits 10 n,
          ((fun c => (charToDigit c).getD 0) ∘ digitToChar) d = id d := by
        intro d hd
        simp [Function.comp, charToDigit_digitToChar d (hlt d hd)]
      rw [List.map_congr_left this, List.map_id]
    rw [decodeNat, hlist]
    rcases hl : ((Nat.digits 10 n).map digitToChar).reverse with _ | ⟨c, cs⟩
    · exact absurd hl hne
    · rw [← hl]
      simp only [hl]
      rw [← hl, hall]
      simp only [if_true]
      rw [hmap, Nat.ofDigits_digits]

/-! ## Case equations for one step of the inner task loop -/

theorem procEntry_paused (ok : String → Bool) (evs : List String) (now cd : Nat)
    (umo : String) (acc : ProcAcc) (tid : String) (task : TaskRec)
    (hs : task.status ≠ "active") :
    procEntry ok evs now cd umo acc (tid, task) =
      { acc with kept := acc.kept ++ [(tid, task)] } := by
  simp [procEntry, hs]

theorem procEntry_interval_badparse (ok : String → Bool) (evs : List String) (now cd : Nat)
    (umo : String) (acc : ProcAcc) (tid : String) (task : TaskRec)
    (hs : task.status = "active") (ht : task.type = "interval")
    (hp : parseFloat task.time = none) :
    procEntry ok evs now cd umo acc (tid, task) =
      { acc with kept := acc.kept ++ [(tid, task)] } := by
  simp [procEntry, hs, ht, hp]

theorem procEntry_interval_due (ok : String → Bool) (evs : List String) (now cd : Nat)
    (umo : String) (acc : ProcAcc) (tid : String) (task : TaskRec) (iv : Dec)
    (hs : task.status = "active") (ht : task.type = "interval")
    (hp : parseFloat task.time = some iv)
    (hdue : intervalDue task.last_run now iv = true) :
    procEntry ok evs now cd umo acc (tid, task) =
      { acc with
          kept := acc.kept ++ [(tid, { task with last_run := some now })],
          disps := acc.disps ++ [(umo, tid, send_task_message acc.infos evs ok umo tid)] } := by
  simp [procEntry, hs, ht, hp, hdue]

theorem procEntry_interval_notdue (ok : String → Bool) (evs : List String) (now cd : Nat)
    (umo : String) (acc : ProcAcc) (tid : String) (task : TaskRec) (iv : Dec)
    (hs : task.status = "active") (ht : task.type = "interval")
    (hp : parseFloat task.time = some iv)
    (hdue : intervalDue task.last_run now iv = false) :
    procEntry ok evs now cd umo acc (tid, task) =
      { acc with kept := acc.kept ++ [(tid, task)] } := by
  simp [procEntry, hs, ht, hp, hdue]

theorem procEntry_once_badparse (ok : String → Bool) (evs : List String) (now cd : Nat)
    (umo : String) (acc : ProcAcc) (tid : String) (task : TaskRec)
    (hs : task.status = "active") (ht : task.type = "once")
    (hp : parseFloat task.time = none) :
    procEntry ok evs now cd umo acc (tid, task) =
      { acc with kept := acc.kept ++ [(tid, task)] } := by
  simp [procEntry, hs, ht, hp]

theorem procEntry_once_due (ok : String → Bool) (evs : List String) (now cd : Nat)
    (umo : String) (acc : ProcAcc) (tid : String) (task : TaskRec) (dl : Dec)
    (hs : task.status = "active") (ht : task.type = "once")
    (hp : parseFloat task.time = some dl)
    (hdue : onceDue task.create_time now dl = true) :
    procEntry ok evs now cd umo acc (tid, task) =
      { acc with
          infos := delInfo acc.infos umo tid,
          disps := acc.disps ++ [(umo, tid, send_task_message acc.infos evs ok umo tid)] } := by
  simp [procEntry, hs, ht, hp, hdue]

theorem procEntry_once_notdue (ok : String → Bool) (evs : List String) (now cd : Nat)
    (umo : String) (acc : ProcAcc) (tid : String) (task : TaskRec) (dl : Dec)
    (hs : task.status = "active") (ht : task.type = "once")
    (hp : parseFloat task.time = some dl)
    (hdue : onceDue task.create_time now dl = false) :
    procEntry ok evs now cd umo acc (tid, task) =
      { acc with kept := acc.kept ++ [(tid, task)] } := by
  simp [procEntry, hs, ht, hp, hdue]

theorem procEntry_fixed_badparse (ok : String → Bool) (evs : List String) (now cd : Nat)
    (umo : String) (acc : ProcAcc) (tid : String) (task : TaskRec)
    (hs : task.status = "active") (ht : task.type = "fixed")
    (hp : parse_time task.time = none) :
    procEntry ok evs now cd umo acc (tid, task) =
      { acc with kept := acc.kept ++ [(tid, task)] } := by
  simp [procEntry, hs, ht, hp]

theorem procEntry_fixed_fire (ok : String → Bool) (evs : List String) (now cd : Nat)
    (umo : String) (acc : ProcAcc) (tid : String) (task : TaskRec) (h m : Nat)
    (hs : task.status = "active") (ht : task.type = "fixed")
    (hp : parse_time task.time = some (h, m))
    (hh : dtHour now = h) (hm2 : dtMinute now = m)
    (hnm : execId umo tid cd h m ∉ acc.executed) :
    procEntry ok evs now cd umo acc (tid, task) =
      { acc with
          kept := acc.kept ++ [(tid, { task with last_run := some now })],
          executed := acc.executed ++ [execId umo tid cd h m],
          disps := acc.disps ++ [(umo, tid, send_task_message acc.infos evs ok umo tid)] } := by
  simp [procEntry, hs, ht, hp, hh, hm2, hnm]

theorem procEntry_fixed_nofire (ok : String → Bool) (evs : List String) (now cd : Nat)
    (umo : String) (acc : ProcAcc) (tid : String) (task : TaskRec) (h m : Nat)
    (hs : task.status = "active") (ht : task.type = "fixed")
    (hp : parse_time task.time = some (h, m))
    (hno : ¬(dtHour now = h ∧ dtMinute now = m ∧ execId umo tid cd h m ∉ acc.executed)) :
    procEntry ok evs now cd umo acc (tid, task) =
      { acc with kept := acc.kept ++ [(tid, task)] } := by
  simp only [procEntry, hs, ht, hp]
  simp [hs, ht, hp, hno]

theorem procEntry_unknown (ok : String → Bool) (evs : List String) (now cd : Nat)
    (umo : String) (acc : ProcAcc) (tid : String) (task : TaskRec)
    (hs : task.status = "active") (h1 : task.type ≠ "interval")
    (h2 : task.type ≠ "once") (h3 : task.type ≠ "fixed") :
    procEntry ok evs now cd umo acc (tid, task) =
      { acc with kept := acc.kept ++ [(tid, task)] } := by
  simp [procEntry, hs, h1, h2, h3]

/-! ## Relations describing what a tick can do to the stored data -/

/-- Everything of a task except `last_run` (the only field a tick writes). -/
def sameMeta (t2 t : TaskRec) : Prop :=
  t2.type = t.type ∧ t2.time = t.time ∧ t2.status = t.status ∧
  t2.create_time = t.create_time ∧ t2.target = t.target

theorem sameMeta_refl (t : TaskRec) : sameMeta t t := ⟨rfl, rfl, rfl, rfl, rfl⟩

/-- How the inner loop rebuilds a session dict: every entry is kept with
unchanged metadata (possibly a new `last_run`), except that a `once` task
may be dropped. -/
inductive keptRel : TaskDict → TaskDict → Prop
  | nil : keptRel [] []
  | keep {tid : String} {t t2 : TaskRec} {d K : TaskDict} :
      sameMeta t2 t → keptRel d K → keptRel ((tid, t) :: d) ((tid, t2) :: K)
  | drop {tid : String} {t : TaskRec} {d K : TaskDict} :
      t.type = "once" → keptRel d K → keptRel ((tid, t) :: d) K

/-- How a tick rebuilds the whole task table: session keys and order are
untouched, each dict evolves by `keptRel`. -/
inductive tableRel : TaskTable → TaskTable → Prop
  | nil : tableRel [] []
  | cons {u : String} {d K : TaskDict} {T T2 : TaskTable} :
      keptRel d K → tableRel T T2 → tableRel ((u, d) :: T) ((u, K) :: T2)

/-- The info table during a tick evolves only by `delInfo` deletions. -/
inductive infosReach : InfoTable → InfoTable → Prop
  | refl (i : InfoTable) : infosReach i i
  | step {i j : InfoTable} (u t : String) : infosReach i j → infosReach i (delInfo j u t)

theorem infosReach_trans {i j k : InfoTable}
    (h1 : infosReach i j) (h2 : infosReach j k) : infosReach i k := by
  induction h2 with
  | refl => exact h1
  | step u t _ ih => exact infosReach.step u t ih

/-- Structure of a single `procEntry` step, for arbitrary inputs. -/
theorem procEntry_shape (ok : String → Bool) (evs : List String) (now cd : Nat)
    (umo : String) (acc : ProcAcc) (tid : String) (task : TaskRec) :
    ∃ K X I DS,
      procEntry ok evs now cd umo acc (tid, task) =
        ⟨acc.kept ++ K, acc.executed ++ X, I, acc.disps ++ DS⟩ ∧
      ((∃ t2, K = [(tid, t2)] ∧ sameMeta t2 task) ∨ (K = [] ∧ task.type = "once")) ∧
      (DS = [] ∨ DS = [(umo, tid, send_task_message acc.infos evs ok umo tid)]) ∧
      (I = acc.infos ∨ I = delInfo acc.infos umo tid) := by
  have keepCase :
      procEntry ok evs now cd umo acc (tid, task) =
        { acc with kept := acc.kept ++ [(tid, task)] } →
      ∃ K X I DS,
        procEntry ok evs now cd umo acc (tid, task) =
          ⟨acc.kept ++ K, acc.executed ++ X, I, acc.disps ++ DS⟩ ∧
        ((∃ t2, K = [(tid, t2)] ∧ sameMeta t2 task) ∨ (K = [] ∧ task.type = "once")) ∧
        (DS = [] ∨ DS = [(umo, tid, send_task_message acc.infos evs ok umo tid)]) ∧
        (I = acc.infos ∨ I = delInfo acc.infos umo tid) := by
    intro heq
    exact ⟨[(tid, task)], [], acc.infos, [], by rw [heq]; simp,
      Or.inl ⟨task, rfl, sameMeta_refl task⟩, Or.inl rfl, Or.inl rfl⟩
  by_cases hs : task.status = "active"
  · by_cases ht1 : task.type = "interval"
    · cases hp : parseFloat task.time with
      | none => exact keepCase (procEntry_interval_badparse ok evs now cd umo acc tid task hs ht1 hp)
      | some iv =>
        cases hdue : intervalDue task.last_run now iv with
        | true =>
          refine ⟨[(tid, { task with last_run := some now })], [], acc.infos,
            [(umo, tid, send_task_message acc.infos evs ok umo tid)], ?_, ?_, ?_, ?_⟩
          · rw [procEntry_interval_due ok evs now cd umo acc tid task iv hs ht1 hp hdue]
            simp
          · exact Or.inl ⟨_, rfl, ⟨rfl, rfl, rfl, rfl, rfl⟩⟩
          · exact Or.inr rfl
          · exact Or.inl rfl
        | false =>
          exact keepCase (procEntry_interval_notdue ok evs now cd umo acc tid task iv hs ht1 hp hdue)
    · by_cases ht2 : task.type = "once"
      · cases hp : parseFloat task.time with
        | none => exact keepCase (procEntry_once_badparse ok evs now cd umo acc tid task hs ht2 hp)
        | some dl =>
          cases hdue : onceDue task.create_time now dl with
          | true =>
            refine ⟨[], [], delInfo acc.infos umo tid,
              [(umo, tid, send_task_message acc.infos evs ok umo tid)], ?_, ?_, ?_, ?_⟩
            · rw [procEntry_once_due ok evs now cd umo acc tid task dl hs ht2 hp hdue]
              simp
            · exact Or.inr ⟨rfl, ht2⟩
            · exact Or.inr rfl
            · exact Or.inr rfl
          | false =>
            exact keepCase (procEntry_once_notdue ok evs now cd umo acc tid task dl hs ht2 hp hdue)
      · by_cases ht3 : task.type = "fixed"
        · cases hp : parse_time task.time with
          | none => exact keepCase (procEntry_fixed_badparse ok evs now cd umo acc tid task hs ht3 hp)
          | some hm =>
            obtain ⟨h, m⟩ := hm
            by_cases hfire : dtHour now = h ∧ dtMinute now = m ∧ execId umo tid cd h m ∉ acc.executed
            · refine ⟨[(tid, { task with last_run := some now })], [execId umo tid cd h m],
                acc.infos, [(umo, tid, send_task_message acc.infos evs ok umo tid)], ?_, ?_, ?_, ?_⟩
              · rw [procEntry_fixed_fire ok evs now cd umo acc tid task h m hs ht3 hp
                  hfire.1 hfire.2.1 hfire.2.2]
              · exact Or.inl ⟨_, rfl, ⟨rfl, rfl, rfl, rfl, rfl⟩⟩
              · exact Or.inr rfl
              · exact Or.inl rfl
            · exact keepCase (procEntry_fixed_nofire ok evs now cd umo acc tid task h m hs ht3 hp hfire)
        · exact keepCase (procEntry_unknown ok evs now cd umo acc tid task hs ht1 ht2 ht3)
  · exact keepCase (procEntry_paused ok evs now cd umo acc tid task hs)

/-! ## Lemmas about `keptRel`, `tableRel`, `infosReach` -/

theorem keptRel_keys_sublist {d K : TaskDict} (h : keptRel d K) :
    (K.map Prod.fst).Sublist (d.map Prod.fst) := by
  induction h with
  | nil => exact List.Sublist.refl _
  | keep _ _ ih => exact List.Sublist.cons₂ _ ih
  | drop _ _ ih => exact List.Sublist.cons _ ih

theorem keptRel_getd_none {d K : TaskDict} {tid : String} (h : keptRel d K)
    (hg : getd d tid = none) : getd K tid = none := by
  induction h with
  | nil => rfl
  | @keep tid1 t t2 d1 K1 _ _ ih =>
    simp only [getd] at hg ⊢
    by_cases hk : tid1 = tid
    · rw [if_pos hk] at hg
      exact Option.noConfusion hg
    · rw [if_neg hk] at hg ⊢
      exact ih hg
  | @drop tid1 t d1 K1 _ _ ih =>
    simp only [getd] at hg
    by_cases hk : tid1 = tid
    · rw [if_pos hk] at hg
      exact Option.noConfusion hg
    · rw [if_neg hk] at hg
      exact ih hg

theorem keptRel_getd_some {d K : TaskDict} {tid : String} {t : TaskRec} (h : keptRel d K)
    (hnd : (d.map Prod.fst).Nodup) (hg : getd d tid = some t) :
    (getd K tid = none ∧ t.type = "once") ∨
    (∃ t2, getd K tid = some t2 ∧ sameMeta t2 t) := by
  induction h with
  | nil => simp [getd] at hg
  | @keep tid1 t1 t2 d1 K1 hm _ ih =>
    simp only [List.map_cons, List.nodup_cons] at hnd
    simp only [getd] at hg ⊢
    by_cases hk : tid1 = tid
    · rw [if_pos hk] at hg ⊢
      injection hg with hg
      subst hg
      exact Or.inr ⟨t2, rfl, hm⟩
    · rw [if_neg hk] at hg ⊢
      exact ih hnd.2 hg
  | @drop tid1 t1 d1 K1 ho hrel ih =>
    simp only [List.map_cons, List.nodup_cons] at hnd
    simp only [getd] at hg
    by_cases hk : tid1 = tid
    · rw [if_pos hk] at hg
      injection hg with hg
      subst hg
      refine Or.inl ⟨?_, ho⟩
      refine keptRel_getd_none hrel (getd_eq_none ?_)
      rw [← hk]
      exact hnd.1
    · rw [if_neg hk] at hg
      exact ih hnd.2 hg

theorem keptRel_getd_rev {d K : TaskDict} {tid : String} {t2 : TaskRec} (h : keptRel d K)
    (hnd : (d.map Prod.fst).Nodup) (hg : getd K tid = some t2) :
    ∃ t, getd d tid = some t ∧ sameMeta t2 t := by
  induction h with
  | nil => simp [getd] at hg
  | @keep tid1 t1 t3 d1 K1 hm _ ih =>
    simp only [List.map_cons, List.nodup_cons] at hnd
    simp only [getd] at hg ⊢
    by_cases hk : tid1 = tid
    · rw [if_pos hk] at hg ⊢
      injection hg with hg
      subst hg
      exact ⟨t1, rfl, hm⟩
    · rw [if_neg hk] at hg ⊢
      exact ih hnd.2 hg
  | @drop tid1 t1 d1 K1 ho hrel ih =>
    simp only [List.map_cons, List.nodup_cons] at hnd
    simp only [getd]
    by_cases hk : tid1 = tid
    · exfalso
      have : getd K1 tid = none := by
        refine keptRel_getd_none hrel (getd_eq_none ?_)
        rw [← hk]
        exact hnd.1
      rw [this] at hg
      exact Option.noConfusion hg
    · rw [if_neg hk]
      exact ih hnd.2 hg

theorem keptRel_nodup {d K : TaskDict} (h : keptRel d K)
    (hnd : (d.map Prod.fst).Nodup) : (K.map Prod.fst).Nodup :=
  (keptRel_keys_sublist h).nodup hnd

theorem tableRel_keys {T T2 : TaskTable} (h : tableRel T T2) :
    T2.map Prod.fst = T.map Prod.fst := by
  induction h with
  | nil => rfl
  | cons _ _ ih => simpa using ih

theorem tableRel_getd {T T2 : TaskTable} {u : String} {d : TaskDict}
    (h : tableRel T T2) (hg : getd T u = some d) :
    ∃ K, getd T2 u = some K ∧ keptRel d K := by
  induction h with
  | nil => simp [getd] at hg
  | @cons u1 d1 K1 T1 T3 hk hrel ih =>
    simp only [getd] at hg ⊢
    by_cases hu : u1 = u
    · rw [if_pos hu] at hg ⊢
      injection hg with hg
      subst hg
      exact ⟨K1, rfl, hk⟩
    · rw [if_neg hu] at hg ⊢
      exact ih hg

theorem keys_of_getd_none {α : Type} :
    ∀ {l : List (String × α)} {k : String}, getd l k = none → k ∉ l.map Prod.fst := by
  intro l
  induction l with
  | nil => intro k _; simp
  | cons p r ih =>
    intro k h
    obtain ⟨k1, v1⟩ := p
    simp only [getd] at h
    by_cases hk : k1 = k
    · rw [if_pos hk] at h
      exact Option.noConfusion h
    · rw [if_neg hk] at h
      simp only [List.map_cons, List.mem_cons]
      push_neg
      exact ⟨fun heq => hk heq.symm, ih h⟩

theorem tableRel_getd_none {T T2 : TaskTable} {u : String}
    (h : tableRel T T2) (hg : getd T u = none) : getd T2 u = none := by
  refine getd_eq_none ?_
  rw [tableRel_keys h]
  exact keys_of_getd_none hg

/-! ## Structure of the inner fold over one session dict -/

theorem foldl_procEntry_shape (ok : String → Bool) (evs : List String) (now cd : Nat)
    (umo : String) : ∀ (d : TaskDict) (acc : ProcAcc),
    ∃ K X DS,
      (d.foldl (procEntry ok evs now cd umo) acc).kept = acc.kept ++ K ∧
      (d.foldl (procEntry ok evs now cd umo) acc).executed = acc.executed ++ X ∧
      (d.foldl (procEntry ok evs now cd umo) acc).disps = acc.disps ++ DS ∧
      keptRel d K ∧
      (∀ x ∈ DS, x.1 = umo ∧ x.2.1 ∈ d.map Prod.fst) ∧
      infosReach acc.infos (d.foldl (procEntry ok evs now cd umo) acc).infos := by
  intro d
  induction d with
  | nil =>
    intro acc
    exact ⟨[], [], [], by simp, by simp, by simp, keptRel.nil, by simp, infosReach.refl _⟩
  | cons e d ih =>
    intro acc
    obtain ⟨tid, task⟩ := e
    obtain ⟨K0, X0, I0, DS0, heq, hK0, hDS0, hI0⟩ :=
      procEntry_shape ok evs now cd umo acc tid task
    obtain ⟨K1, X1, DS1, h1, h2, h3, h4, h5, h6⟩ :=
      ih (procEntry ok evs now cd umo acc (tid, task))
    refine ⟨K0 ++ K1, X0 ++ X1, DS0 ++ DS1, ?_, ?_, ?_, ?_, ?_, ?_⟩
    · rw [List.foldl_cons, h1, heq]
      simp
    · rw [List.foldl_cons, h2, heq]
      simp
    · rw [List.foldl_cons, h3, heq]
      simp
    · rcases hK0 with ⟨t2, rfl, hm⟩ | ⟨rfl, ho⟩
      · exact keptRel.keep hm h4
      · exact keptRel.drop ho h4
    · intro x hx
      rcases List.mem_append.1 hx with hx | hx
      · rcases hDS0 with rfl | rfl
        · simp at hx
        · simp at hx
          subst hx
          simp
      · obtain ⟨ha, hb⟩ := h5 x hx
        exact ⟨ha, by simp [hb]⟩
    · rw [List.foldl_cons]
      rw [heq] at h6 ⊢
      have hgoal : infosReach acc.infos I0 := by
        rcases hI0 with hI | hI
        · rw [hI]
          exact infosReach.refl _
        · rw [hI]
          exact infosReach.step _ _ (infosReach.refl _)
      exact infosReach_trans hgoal h6

/-! ## Structure of the outer fold over all sessions, and of a whole tick -/

theorem foldl_tickStep_shape (ok : String → Bool) (evs : List String) (now cd : Nat) :
    ∀ (ss : TaskTable) (a : TickAcc),
    ∃ T X DS,
      (ss.foldl (tickStep ok evs now cd) a).table = a.table ++ T ∧
      (ss.foldl (tickStep ok evs now cd) a).executed = a.executed ++ X ∧
      (ss.foldl (tickStep ok evs now cd) a).disps = a.disps ++ DS ∧
      tableRel ss T ∧
      (∀ x ∈ DS, ∃ s ∈ ss, x.1 = s.1 ∧ x.2.1 ∈ s.2.map Prod.fst) ∧
      infosReach a.infos (ss.foldl (tickStep ok evs now cd) a).infos := by
  intro ss
  induction ss with
  | nil =>
    intro a
    exact ⟨[], [], [], by simp, by simp, by simp, tableRel.nil, by simp, infosReach.refl _⟩
  | cons s ss ih =>
    intro a
    obtain ⟨u, d⟩ := s
    obtain ⟨K0, X0, DS0, hk, hx, hd, hrel, htag, hinf⟩ :=
      foldl_procEntry_shape ok evs now cd u d ⟨[], a.executed, a.infos, []⟩
    simp only at hk hx hd
    obtain ⟨T1, X1, DS1, h1, h2, h3, h4, h5, h6⟩ := ih (tickStep ok evs now cd a (u, d))
    have hstep : tickStep ok evs now cd a (u, d) =
        ⟨a.table ++ [(u, K0)],
         a.executed ++ X0,
         (sessionStep ok evs now cd u a.executed a.infos d).infos,
         a.disps ++ DS0⟩ := by
      show (⟨a.table ++ [(u, (sessionStep ok evs now cd u a.executed a.infos d).kept)],
        (sessionStep ok evs now cd u a.executed a.infos d).executed,
        (sessionStep ok evs now cd u a.executed a.infos d).infos,
        a.disps ++ (sessionStep ok evs now cd u a.executed a.infos d).disps⟩ : TickAcc) = _
      rw [show (sessionStep ok evs now cd u a.executed a.infos d).kept = K0 by
            rw [sessionStep, hk]; simp,
          show (sessionStep ok evs now cd u a.executed a.infos d).executed =
            a.executed ++ X0 by rw [sessionStep, hx],
          show (sessionStep ok evs now cd u a.executed a.infos d).disps = DS0 by
            rw [sessionStep, hd]; simp]
    refine ⟨(u, K0) :: T1, X0 ++ X1, DS0 ++ DS1, ?_, ?_, ?_, ?_, ?_, ?_⟩
    · rw [List.foldl_cons, h1, hstep]
      simp
    · rw [List.foldl_cons, h2, hstep]
      simp
    · rw [List.foldl_cons, h3, hstep]
      simp
    · exact tableRel.cons hrel h4
    · intro x hxm
      rcases List.mem_append.1 hxm with hxm | hxm
      · obtain ⟨ha, hb⟩ := htag x hxm
        exact ⟨(u, d), List.mem_cons_self _ _, ha, hb⟩
      · obtain ⟨s, hs, ha, hb⟩ := h5 x hxm
        exact ⟨s, List.mem_cons_of_mem _ hs, ha, hb⟩
    · rw [List.foldl_cons]
      refine infosReach_trans (j := (tickStep ok evs now cd a (u, d)).infos) ?_ h6
      rw [hstep]
      exact hinf

theorem tick_tasks_rel (ok : String → Bool) (st : SchedState) (now : Nat) :
    tableRel st.tasks (tick ok st now).1.tasks := by
  obtain ⟨T, X, DS, h1, h2, h3, h4, h5, h6⟩ :=
    foldl_tickStep_shape ok st.session_events now (dtDay now) st.tasks
      ⟨[], if dtDay now ≠ st.last_day then [] else st.executed_tasks, st.infos, []⟩
  show tableRel st.tasks (st.tasks.foldl (tickStep ok st.session_events now (dtDay now))
    ⟨[], if dtDay now ≠ st.last_day then [] else st.executed_tasks, st.infos, []⟩).table
  rw [h1]
  simpa using h4

theorem tick_disps_tagged (ok : String → Bool) (st : SchedState) (now : Nat) :
    ∀ x ∈ (tick ok st now).2, ∃ s ∈ st.tasks, x.1 = s.1 ∧ x.2.1 ∈ s.2.map Prod.fst := by
  obtain ⟨T, X, DS, h1, h2, h3, h4, h5, h6⟩ :=
    foldl_tickStep_shape ok st.session_events now (dtDay now) st.tasks
      ⟨[], if dtDay now ≠ st.last_day then [] else st.executed_tasks, st.infos, []⟩
  intro x hx
  refine h5 x ?_
  have : (tick ok st now).2 = DS := by
    show (st.tasks.foldl (tickStep ok st.session_events now (dtDay now))
      ⟨[], if dtDay now ≠ st.last_day then [] else st.executed_tasks, st.infos, []⟩).disps = DS
    rw [h3]
    simp
  rwa [this] at hx

theorem tick_executed_shape (ok : String → Bool) (st : SchedState) (now : Nat) :
    ∃ X, (tick ok st now).1.executed_tasks =
      (if dtDay now ≠ st.last_day then [] else st.executed_tasks) ++ X := by
  obtain ⟨T, X, DS, h1, h2, h3, h4, h5, h6⟩ :=
    foldl_tickStep_shape ok st.session_events now (dtDay now) st.tasks
      ⟨[], if dtDay now ≠ st.last_day then [] else st.executed_tasks, st.infos, []⟩
  exact ⟨X, h2⟩

theorem tick_infos_reach (ok : String → Bool) (st : SchedState) (now : Nat) :
    infosReach st.infos (tick ok st now).1.infos := by
  obtain ⟨T, X, DS, h1, h2, h3, h4, h5, h6⟩ :=
    foldl_tickStep_shape ok st.session_events now (dtDay now) st.tasks
      ⟨[], if dtDay now ≠ st.last_day then [] else st.executed_tasks, st.infos, []⟩
  exact h6

theorem tick_events (ok : String → Bool) (st : SchedState) (now : Nat) :
    (tick ok st now).1.session_events = st.session_events := rfl

theorem tick_next_id (ok : String → Bool) (st : SchedState) (now : Nat) :
    (tick ok st now).1.next_id = st.next_id := rfl

theorem tick_last_day (ok : String → Bool) (st : SchedState) (now : Nat) :
    (tick ok st now).1.last_day = dtDay now := by
  show (if dtDay now ≠ st.last_day then dtDay now else st.last_day) = dtDay now
  by_cases h : dtDay now ≠ st.last_day
  · rw [if_pos h]
  · rw [if_neg h]
    push_neg at h
    exact h.symm

theorem dispsFor_append (a b : List Disp) (umo tid : String) :
    dispsFor (a ++ b) umo tid = dispsFor a umo tid ++ dispsFor b umo tid := by
  simp [dispsFor]

theorem dispsFor_eq_nil {DS : List Disp} {umo tid : String}
    (h : ∀ x ∈ DS, ¬(x.1 = umo ∧ x.2.1 = tid)) : dispsFor DS umo tid = [] := by
  rw [dispsFor, List.filterMap_eq_nil]
  intro x hx
  rw [if_neg (h x hx)]

theorem keptRel_keys_not_mem {d K : TaskDict} {tid : String} (h : keptRel d K)
    (hm : tid ∉ d.map Prod.fst) : tid ∉ K.map Prod.fst :=
  fun hk => hm ((keptRel_keys_sublist h).subset hk)

/-- Where a single `(umo, tid)` task sits inside one tick: there is an
inner-loop accumulator `accPre` (reached just before the task's own entry
is processed) through which the whole effect of the tick on that task
factors. -/
theorem tick_split (ok : String → Bool) (st : SchedState) (now : Nat)
    {S₁ S₂ : TaskTable} {umo : String} {d₁ d₂ : TaskDict} {tid : String} {task : TaskRec}
    (hS : st.tasks = S₁ ++ (umo, d₁ ++ (tid, task) :: d₂) :: S₂)
    (hu₁ : umo ∉ S₁.map Prod.fst) (hu₂ : umo ∉ S₂.map Prod.fst)
    (ht₁ : tid ∉ d₁.map Prod.fst) (ht₂ : tid ∉ d₂.map Prod.fst) :
    ∃ accPre : ProcAcc,
      (∃ X0, accPre.executed =
        (if dtDay now ≠ st.last_day then [] else st.executed_tasks) ++ X0) ∧
      infosReach st.infos accPre.infos ∧
      tid ∉ accPre.kept.map Prod.fst ∧
      dispsFor accPre.disps umo tid = [] ∧
      dispsFor (tick ok st now).2 umo tid =
        dispsFor (procEntry ok st.session_events now (dtDay now) umo accPre (tid, task)).disps umo tid ∧
      taskLookup (tick ok st now).1 umo tid =
        getd (procEntry ok st.session_events now (dtDay now) umo accPre (tid, task)).kept tid ∧
      (∃ Y, (tick ok st now).1.executed_tasks =
        (procEntry ok st.session_events now (dtDay now) umo accPre (tid, task)).executed ++ Y) ∧
      infosReach (procEntry ok st.session_events now (dtDay now) umo accPre (tid, task)).infos
        (tick ok st now).1.infos := by
  set evs := st.session_events with hevs
  set cd := dtDay now with hcd
  set ex0 := (if dtDay now ≠ st.last_day then [] else st.executed_tasks) with hex0
  set D := d₁ ++ (tid, task) :: d₂ with hD
  set a0 : TickAcc := ⟨[], ex0, st.infos, []⟩ with ha0
  set A1 := S₁.foldl (tickStep ok evs now cd) a0 with hA1
  set A2 := tickStep ok evs now cd A1 (umo, D) with hA2
  set A3 := S₂.foldl (tickStep ok evs now cd) A2 with hA3
  have hfold : st.tasks.foldl (tickStep ok evs now cd) a0 = A3 := by
    rw [hS, List.foldl_append, List.foldl_cons]
  have htick1 : (tick ok st now).1 =
      ⟨A3.table, A3.infos, st.session_events, A3.executed,
       if cd ≠ st.last_day then cd else st.last_day, st.next_id⟩ := by
    show (⟨(st.tasks.foldl (tickStep ok evs now cd) a0).table,
      (st.tasks.foldl (tickStep ok evs now cd) a0).infos, st.session_events,
      (st.tasks.foldl (tickStep ok evs now cd) a0).executed,
      if cd ≠ st.last_day then cd else st.last_day, st.next_id⟩ : SchedState) = _
    rw [hfold]
  have htick2 : (tick ok st now).2 = A3.disps := by
    show (st.tasks.foldl (tickStep ok evs now cd) a0).disps = A3.disps
    rw [hfold]
  -- shape of the fold over the sessions before ours
  obtain ⟨T₁, X₁, DS₁, hb1, hb2, hb3, hb4, hb5, hb6⟩ :=
    foldl_tickStep_shape ok evs now cd S₁ a0
  rw [← hA1] at hb1 hb2 hb3 hb6
  simp only [ha0] at hb1 hb2 hb3 hb6
  rw [List.nil_append] at hb1
  -- the inner fold over our session dict, split at our entry
  set accInit : ProcAcc := ⟨[], A1.executed, A1.infos, []⟩ with haccInit
  set accPre := d₁.foldl (procEntry ok evs now cd umo) accInit with haccPre
  set r1 := procEntry ok evs now cd umo accPre (tid, task) with hr1
  set accPost := d₂.foldl (procEntry ok evs now cd umo) r1 with haccPost
  have hsess : sessionStep ok evs now cd umo A1.executed A1.infos D = accPost := by
    rw [sessionStep, hD, List.foldl_append, List.foldl_cons]
  obtain ⟨K₁, X₂, DS₂, hc1, hc2, hc3, hc4, hc5, hc6⟩ :=
    foldl_procEntry_shape ok evs now cd umo d₁ accInit
  rw [← haccPre] at hc1 hc2 hc3 hc6
  simp only [haccInit] at hc1 hc2 hc3 hc6
  rw [List.nil_append] at hc1
  obtain ⟨K₃, X₃, DS₃, he1, he2, he3, he4, he5, he6⟩ :=
    foldl_procEntry_shape ok evs now cd umo d₂ r1
  rw [← haccPost] at he1 he2 he3 he6
  have hA2eq : A2 = ⟨A1.table ++ [(umo, accPost.kept)], accPost.executed,
      accPost.infos, A1.disps ++ accPost.disps⟩ := by
    rw [hA2, tickStep, hsess]
  have hA2table : A2.table = A1.table ++ [(umo, accPost.kept)] := by rw [hA2eq]
  have hA2exec : A2.executed = accPost.executed := by rw [hA2eq]
  have hA2infos : A2.infos = accPost.infos := by rw [hA2eq]
  have hA2disps : A2.disps = A1.disps ++ accPost.disps := by rw [hA2eq]
  -- shape of the fold over the sessions after ours
  obtain ⟨T₃, X₄, DS₄, hf1, hf2, hf3, hf4, hf5, hf6⟩ :=
    foldl_tickStep_shape ok evs now cd S₂ A2
  rw [← hA3] at hf1 hf2 hf3 hf6
  refine ⟨accPre, ⟨X₁ ++ X₂, by rw [hc2, hb2, List.append_assoc]⟩, ?_, ?_, ?_, ?_, ?_, ?_, ?_⟩
  · exact infosReach_trans hb6 hc6
  · rw [hc1]
    exact keptRel_keys_not_mem hc4 ht₁
  · refine dispsFor_eq_nil ?_
    intro x hx
    rw [hc3] at hx
    obtain ⟨hxa, hxb⟩ := hc5 x hx
    intro hcon
    rw [hcon.2] at hxb
    exact ht₁ hxb
  · -- the tick dispatch log restricted to (umo, tid) is our entry's
    have hn1 : dispsFor A1.disps umo tid = [] := by
      rw [hb3, List.nil_append]
      refine dispsFor_eq_nil ?_
      intro x hx
      obtain ⟨s, hs, hxa, _⟩ := hb5 x hx
      intro hcon
      refine hu₁ ?_
      rw [← hcon.1, hxa]
      exact List.mem_map.2 ⟨s, hs, rfl⟩
    have hn3 : dispsFor DS₃ umo tid = [] := by
      refine dispsFor_eq_nil ?_
      intro x hx
      obtain ⟨hxa, hxb⟩ := he5 x hx
      intro hcon
      rw [hcon.2] at hxb
      exact ht₂ hxb
    have hn4 : dispsFor DS₄ umo tid = [] := by
      refine dispsFor_eq_nil ?_
      intro x hx
      obtain ⟨s, hs, hxa, _⟩ := hf5 x hx
      intro hcon
      refine hu₂ ?_
      rw [← hcon.1, hxa]
      exact List.mem_map.2 ⟨s, hs, rfl⟩
    rw [htick2, hf3, hA2disps, he3, dispsFor_append, dispsFor_append, dispsFor_append,
      hn1, hn3, hn4]
    simp
  · -- the surviving entry for (umo, tid)
    have hkeys1 : umo ∉ T₁.map Prod.fst := by
      rw [tableRel_keys hb4]
      exact hu₁
    have htab : A3.table = T₁ ++ ((umo, accPost.kept) :: T₃) := by
      rw [hf1, hA2table, hb1, List.append_assoc, List.singleton_append]
    rw [htick1]
    show (match getd A3.table umo with
          | none => none
          | some d => getd d tid) = getd r1.kept tid
    rw [htab, getd_append_left _ hkeys1, getd_cons_self]
    show getd accPost.kept tid = getd r1.kept tid
    rw [he1, getd_append]
    cases hgr : getd r1.kept tid with
    | some v => rfl
    | none =>
      show getd K₃ tid = none
      exact getd_eq_none (keptRel_keys_not_mem he4 ht₂)
  · refine ⟨X₃ ++ X₄, ?_⟩
    rw [htick1]
    show A3.executed = r1.executed ++ (X₃ ++ X₄)
    rw [hf2, hA2exec, he2, List.append_assoc]
  · rw [htick1]
    show infosReach r1.infos A3.infos
    refine infosReach_trans ?_ hf6
    rw [hA2infos]
    exact he6

/-! ## Well-formedness (Python dicts have unique keys) and invariants -/

/-- The task table as it exists in the running plugin: session keys unique,
task ids unique within each session. -/
def tableWF (T : TaskTable) : Prop :=
  (T.map Prod.fst).Nodup ∧ ∀ s ∈ T, (s.2.map Prod.fst).Nodup

/-- Info dicts with unique keys. -/
def infosWF (i : InfoTable) : Prop := ∀ p ∈ i, (p.2.map Prod.fst).Nodup

/-- The info table holds nothing (or only the empty string) for `(umo, tid)`. -/
def contentBlank (i : InfoTable) (umo tid : String) : Prop :=
  ∀ p ∈ i, p.1 = umo → ∀ q ∈ p.2, q.1 = tid → q.2 = ""

/-- The info table has no entry at all for `(umo, tid)`. -/
def infoAbsent (i : InfoTable) (umo tid : String) : Prop :=
  ∀ d, getd i umo = some d → getd d tid = none

theorem mem_delInfo {i : InfoTable} {u t : String} {p : String × InfoDict}
    (h : p ∈ delInfo i u t) :
    ∃ q ∈ i, p.1 = q.1 ∧ (p.2 = q.2 ∨ p.2 = deld q.2 t) := by
  induction i with
  | nil => simp [delInfo] at h
  | cons q0 r ih =>
    obtain ⟨k1, v1⟩ := q0
    by_cases hk : k1 = u
    · rw [delInfo, if_pos hk] at h
      rcases List.mem_cons.1 h with h | h
      · exact ⟨(k1, v1), List.mem_cons_self _ _, by rw [h], Or.inr (by rw [h])⟩
      · exact ⟨p, List.mem_cons_of_mem _ h, rfl, Or.inl rfl⟩
    · rw [delInfo, if_neg hk] at h
      rcases List.mem_cons.1 h with h | h
      · exact ⟨(k1, v1), List.mem_cons_self _ _, by rw [h], Or.inl (by rw [h])⟩
      · obtain ⟨q, hq, h1, h2⟩ := ih h
        exact ⟨q, List.mem_cons_of_mem _ hq, h1, h2⟩

theorem contentBlank_delInfo {i : InfoTable} {umo tid u t : String}
    (h : contentBlank i umo tid) : contentBlank (delInfo i u t) umo tid := by
  intro p hp hpu q hq hqt
  obtain ⟨q0, hq0, h1, h2⟩ := mem_delInfo hp
  rcases h2 with h2 | h2
  · exact h q0 hq0 (h1 ▸ hpu) q (h2 ▸ hq) hqt
  · exact h q0 hq0 (h1 ▸ hpu) q (mem_deld (h2 ▸ hq)) hqt

theorem contentBlank_reach {i j : InfoTable} {umo tid : String}
    (hr : infosReach i j) (h : contentBlank i umo tid) : contentBlank j umo tid := by
  induction hr with
  | refl => exact h
  | step u t _ ih => exact contentBlank_delInfo ih

theorem infoAbsent_delInfo {i : InfoTable} {umo tid u t : String}
    (h : infoAbsent i umo tid) : infoAbsent (delInfo i u t) umo tid := by
  intro d hd
  by_cases hu : umo = u
  · subst hu
    rw [getd_delInfo_self] at hd
    cases hg : getd i umo with
    | none => rw [hg] at hd; exact Option.noConfusion hd
    | some d0 =>
      rw [hg] at hd
      injection hd with hd
      subst hd
      refine getd_eq_none ?_
      intro hmem
      exact keys_of_getd_none (h d0 hg) ((keys_deld_sublist d0 t).subset hmem)
  · rw [getd_delInfo_ne t hu] at hd
    exact h d hd

theorem infoAbsent_reach {i j : InfoTable} {umo tid : String}
    (hr : infosReach i j) (h : infoAbsent i umo tid) : infoAbsent j umo tid := by
  induction hr with
  | refl => exact h
  | step u t _ ih => exact infoAbsent_delInfo ih

theorem infosWF_delInfo {i : InfoTable} {u t : String} (h : infosWF i) :
    infosWF (delInfo i u t) := by
  intro p hp
  obtain ⟨q, hq, _, h2⟩ := mem_delInfo hp
  rcases h2 with h2 | h2
  · rw [h2]
    exact h q hq
  · rw [h2]
    exact ((keys_deld_sublist q.2 t).nodup) (h q hq)

theorem infosWF_reach {i j : InfoTable} (hr : infosReach i j) (h : infosWF i) :
    infosWF j := by
  induction hr with
  | refl => exact h
  | step u t _ ih => exact infosWF_delInfo ih

theorem send_of_blank {i : InfoTable} {evs : List String} {ok : String → Bool}
    {umo tid : String} (h : contentBlank i umo tid) :
    send_task_message i evs ok umo tid = none := by
  cases hg : getd i umo with
  | none => simp [send_task_message, hg]
  | some d =>
    cases hgd : getd d tid with
    | none => simp [send_task_message, hg, hgd]
    | some v =>
      have hv : v = "" := h (umo, d) (getd_mem hg) rfl (tid, v) (getd_mem hgd) rfl
      simp [send_task_message, hg, hgd, hv]

theorem send_no_event {i : InfoTable} {evs : List String} {ok : String → Bool}
    {umo tid : String} (h : umo ∉ evs) :
    send_task_message i evs ok umo tid = none := by
  simp only [send_task_message]
  split
  · rfl
  · simp [h]

theorem send_adapter_fail {i : InfoTable} {evs : List String} {ok : String → Bool}
    {umo tid : String} (h : ok umo = false) :
    send_task_message i evs ok umo tid = none := by
  simp only [send_task_message]
  split
  · rfl
  · split
    · simp [h]
    · rfl

/-- Version of `tick_split` keyed by a `taskLookup` hit on a well-formed
table. -/
theorem tick_at (ok : String → Bool) (st : SchedState) (now : Nat)
    {umo tid : String} {task : TaskRec} (hWF : tableWF st.tasks)
    (hp : taskLookup st umo tid = some task) :
    ∃ accPre : ProcAcc,
      (∃ X0, accPre.executed =
        (if dtDay now ≠ st.last_day then [] else st.executed_tasks) ++ X0) ∧
      infosReach st.infos accPre.infos ∧
      tid ∉ accPre.kept.map Prod.fst ∧
      dispsFor accPre.disps umo tid = [] ∧
      dispsFor (tick ok st now).2 umo tid =
        dispsFor (procEntry ok st.session_events now (dtDay now) umo accPre (tid, task)).disps umo tid ∧
      taskLookup (tick ok st now).1 umo tid =
        getd (procEntry ok st.session_events now (dtDay now) umo accPre (tid, task)).kept tid ∧
      (∃ Y, (tick ok st now).1.executed_tasks =
        (procEntry ok st.session_events now (dtDay now) umo accPre (tid, task)).executed ++ Y) ∧
      infosReach (procEntry ok st.session_events now (dtDay now) umo accPre (tid, task)).infos
        (tick ok st now).1.infos := by
  rw [taskLookup] at hp
  cases hg : getd st.tasks umo with
  | none => rw [hg] at hp; exact Option.noConfusion hp
  | some d =>
    rw [hg] at hp
    obtain ⟨S₁, S₂, hsplit, hu₁, hu₂⟩ := getd_split hWF.1 hg
    have hdnd : (d.map Prod.fst).Nodup := hWF.2 (umo, d) (by rw [hsplit]; simp)
    obtain ⟨d₁, d₂, hdsplit, ht₁, ht₂⟩ := getd_split hdnd hp
    rw [hdsplit] at hsplit
    exact tick_split ok st now hsplit hu₁ hu₂ ht₁ ht₂

/-! ## Preservation of the structural facts across a tick -/

theorem tableRel_mem {T T2 : TaskTable} (h : tableRel T T2) {s : String × TaskDict}
    (hs : s ∈ T2) : ∃ s0 ∈ T, s.1 = s0.1 ∧ keptRel s0.2 s.2 := by
  induction h with
  | nil => simp at hs
  | @cons u d K T1 T3 hk _ ih =>
    rcases List.mem_cons.1 hs with hs | hs
    · exact ⟨(u, d), List.mem_cons_self _ _, by rw [hs], by rw [hs]; exact hk⟩
    · obtain ⟨s0, hs0, h1, h2⟩ := ih hs
      exact ⟨s0, List.mem_cons_of_mem _ hs0, h1, h2⟩

theorem tick_tableWF (ok : String → Bool) (st : SchedState) (now : Nat)
    (hWF : tableWF st.tasks) : tableWF (tick ok st now).1.tasks := by
  have hrel := tick_tasks_rel ok st now
  constructor
  · rw [tableRel_keys hrel]
    exact hWF.1
  · intro s hs
    obtain ⟨s0, hs0, _, h2⟩ := tableRel_mem hrel hs
    exact keptRel_nodup h2 (hWF.2 s0 hs0)

theorem tableRel_getd_rev {T T2 : TaskTable} {u : String} {K : TaskDict}
    (h : tableRel T T2) (hg : getd T2 u = some K) :
    ∃ d, getd T u = some d ∧ keptRel d K := by
  induction h with
  | nil => simp [getd] at hg
  | @cons u1 d1 K1 T1 T3 hk hrel ih =>
    simp only [getd] at hg ⊢
    by_cases hu : u1 = u
    · rw [if_pos hu] at hg ⊢
      injection hg with hg
      subst hg
      exact ⟨d1, rfl, hk⟩
    · rw [if_neg hu] at hg ⊢
      exact ih hg

/-- Any surviving task after a tick descends from a stored task with the
same metadata (in particular the same status); a tick never edits status,
kind, time parameter, creation time or target. -/
theorem tick_lookup_rev (ok : String → Bool) (st : SchedState) (now : Nat)
    {umo tid : String} {t2 : TaskRec} (hWF : tableWF st.tasks)
    (h : taskLookup (tick ok st now).1 umo tid = some t2) :
    ∃ t, taskLookup st umo tid = some t ∧ sameMeta t2 t := by
  have hrel := tick_tasks_rel ok st now
  rw [taskLookup] at h
  cases hg : getd (tick ok st now).1.tasks umo with
  | none => rw [hg] at h; exact Option.noConfusion h
  | some K =>
    rw [hg] at h
    obtain ⟨d, hd, hk⟩ := tableRel_getd_rev hrel hg
    have hdnd : (d.map Prod.fst).Nodup := hWF.2 (umo, d) (getd_mem hd)
    obtain ⟨t, ht, hm⟩ := keptRel_getd_rev hk hdnd h
    exact ⟨t, by rw [taskLookup, hd]; exact ht, hm⟩

/-- Forward direction: a stored task either survives a tick with unchanged
metadata or (only for kind `once`) is deleted. -/
theorem tick_lookup_fwd (ok : String → Bool) (st : SchedState) (now : Nat)
    {umo tid : String} {t : TaskRec} (hWF : tableWF st.tasks)
    (h : taskLookup st umo tid = some t) :
    (taskLookup (tick ok st now).1 umo tid = none ∧ t.type = "once") ∨
    ∃ t2, taskLookup (tick ok st now).1 umo tid = some t2 ∧ sameMeta t2 t := by
  have hrel := tick_tasks_rel ok st now
  rw [taskLookup] at h
  cases hg : getd st.tasks umo with
  | none => rw [hg] at h; exact Option.noConfusion h
  | some d =>
    rw [hg] at h
    obtain ⟨K, hK, hk⟩ := tableRel_getd hrel hg
    have hdnd : (d.map Prod.fst).Nodup := hWF.2 (umo, d) (getd_mem hg)
    rcases keptRel_getd_some hk hdnd h with ⟨hnone, ho⟩ | ⟨t2, ht2, hm⟩
    · exact Or.inl ⟨by rw [taskLookup, hK]; exact hnone, ho⟩
    · exact Or.inr ⟨t2, by rw [taskLookup, hK]; exact ht2, hm⟩

theorem tick_lookup_absent (ok : String → Bool) (st : SchedState) (now : Nat)
    {umo tid : String} (h : taskLookup st umo tid = none) :
    taskLookup (tick ok st now).1 umo tid = none := by
  have hrel := tick_tasks_rel ok st now
  rw [taskLookup] at h ⊢
  cases hg : getd st.tasks umo with
  | none => rw [tableRel_getd_none hrel hg]
  | some d =>
    rw [hg] at h
    obtain ⟨K, hK, hk⟩ := tableRel_getd hrel hg
    rw [hK]
    exact keptRel_getd_none hk h

theorem nodup_keys_eq {α : Type} {l : List (String × α)} (h : (l.map Prod.fst).Nodup)
    {k : String} {a b : α} (ha : (k, a) ∈ l) (hb : (k, b) ∈ l) : a = b := by
  induction l with
  | nil => simp at ha
  | cons p r ih =>
    obtain ⟨k1, v1⟩ := p
    simp only [List.map_cons, List.nodup_cons] at h
    rcases List.mem_cons.1 ha with ha | ha
    · rcases List.mem_cons.1 hb with hb | hb
      · injection ha with _ h2
        injection hb with _ h4
        exact h2.trans h4.symm
      · exfalso
        injection ha with hk1 _
        refine h.1 ?_
        rw [← hk1]
        exact List.mem_map.2 ⟨(k, b), hb, rfl⟩
    · rcases List.mem_cons.1 hb with hb | hb
      · exfalso
        injection hb with hk1 _
        refine h.1 ?_
        rw [← hk1]
        exact List.mem_map.2 ⟨(k, a), ha, rfl⟩
      · exact ih h.2 ha hb

/-- When the task is absent, no dispatch for it can appear in a tick
(dispatch-log entries are tagged by existing `(session, id)` pairs). -/
theorem tick_disps_absent (ok : String → Bool) (st : SchedState) (now : Nat)
    {umo tid : String} (hWF : tableWF st.tasks)
    (h : taskLookup st umo tid = none) :
    dispsFor (tick ok st now).2 umo tid = [] := by
  refine dispsFor_eq_nil ?_
  intro x hx hcon
  obtain ⟨s, hs, h1, h2⟩ := tick_disps_tagged ok st now x hx
  rw [taskLookup] at h
  cases hg : getd st.tasks umo with
  | none =>
    refine keys_of_getd_none hg ?_
    rw [← hcon.1, h1]
    exact List.mem_map.2 ⟨s, hs, rfl⟩
  | some d =>
    rw [hg] at h
    obtain ⟨su, sd⟩ := s
    have h3 : su = umo := h1.symm.trans hcon.1
    subst h3
    have h4 : sd = d := nodup_keys_eq hWF.1 hs (getd_mem hg)
    subst h4
    rw [hcon.2] at h2
    exact keys_of_getd_none h h2

/-! ## The integer comparison agrees with the real-number reading -/

theorem decMulSixtyLe_iff (f : Dec) (x : Int) :
    decMulSixtyLe f x = true ↔ realOf f * 60 ≤ (x : ℚ) := by
  rw [decMulSixtyLe, decide_eq_true_eq, realOf, div_mul_eq_mul_div,
    div_le_iff (by positivity : (0 : ℚ) < 10 ^ f.s)]
  constructor
  · intro h
    have : ((f.m * 60 : Int) : ℚ) ≤ ((x * 10 ^ f.s : Int) : ℚ) := Int.cast_le.2 h
    push_cast at this
    linarith
  · intro h
    have : ((f.m * 60 : Int) : ℚ) ≤ ((x * 10 ^ f.s : Int) : ℚ) := by
      push_cast
      linarith
    exact_mod_cast this

theorem intervalDue_none (now : Nat) (iv : Dec) : intervalDue none now iv = true := rfl

theorem intervalDue_some_iff (l now : Nat) (iv : Dec) :
    intervalDue (some l) now iv = true ↔ realOf iv * 60 ≤ (now : ℚ) - (l : ℚ) := by
  rw [intervalDue, decMulSixtyLe_iff]
  push_cast
  rfl

theorem onceDue_iff (ct now : Nat) (dl : Dec) :
    onceDue ct now dl = true ↔ (ct : ℚ) + realOf dl * 60 ≤ (now : ℚ) := by
  rw [onceDue, decMulSixtyLe_iff]
  push_cast
  constructor
  · intro h
    linarith
  · intro h
    linarith

/-! ## Round-trip of the persisted JSON documents -/

theorem jsonToTask_taskToJson (t : TaskRec) : jsonToTask (taskToJson t) = some t := by
  obtain ⟨ty, ti, s, ct, lr, tg⟩ := t
  cases lr with
  | none => simp [taskToJson, jsonToTask, decodeNat_natStr]
  | some v => simp [taskToJson, jsonToTask, decodeNat_natStr]

theorem decodeTaskEntries_roundtrip (d : TaskDict) :
    decodeTaskEntries (d.map (fun e => (e.1, taskToJson e.2))) = some d := by
  induction d with
  | nil => rfl
  | cons e r ih => simp [decodeTaskEntries, jsonToTask_taskToJson, ih]

theorem jsonToTaskDict_roundtrip (d : TaskDict) :
    jsonToTaskDict (taskDictToJson d) = some d := by
  rw [taskDictToJson, jsonToTaskDict]
  exact decodeTaskEntries_roundtrip d

theorem decodeTableEntries_roundtrip (tbl : TaskTable) :
    decodeTableEntries (tbl.map (fun e => (e.1, taskDictToJson e.2))) = some tbl := by
  induction tbl with
  | nil => rfl
  | cons e r ih => simp [decodeTableEntries, jsonToTaskDict_roundtrip, ih]

theorem decodeInfoEntries_roundtrip (d : InfoDict) :
    decodeInfoEntries (d.map (fun e => (e.1, Json.str e.2))) = some d := by
  induction d with
  | nil => rfl
  | cons e r ih => simp [decodeInfoEntries, ih]

theorem jsonToInfoDict_roundtrip (d : InfoDict) :
    jsonToInfoDict (infoDictToJson d) = some d := by
  rw [infoDictToJson, jsonToInfoDict]
  exact decodeInfoEntries_roundtrip d

theorem decodeInfoTableEntries_roundtrip (tbl : InfoTable) :
    decodeInfoTableEntries (tbl.map (fun e => (e.1, infoDictToJson e.2))) = some tbl := by
  induction tbl with
  | nil => rfl
  | cons e r ih => simp [decodeInfoTableEntries, jsonToInfoDict_roundtrip, ih]

/-! ## Validation helpers for `set_timing` -/

theorem parseFloat_of_trim_nil {s : String} (h : trimChars s.toList = []) :
    parseFloat s = none := by
  have h2 : trimChars s.data = [] := h
  simp [parseFloat, h2]

theorem all_space_of_trim_nil {l : List Char} (h : trimChars l = []) :
    ∀ c ∈ l, isSpaceC c := by
  rw [trimChars, List.reverse_eq_nil_iff, List.dropWhile_eq_nil_iff] at h
  intro c hc
  rw [← List.takeWhile_append_dropWhile (p := isSpaceC) (l := l)] at hc
  rcases List.mem_append.1 hc with hc | hc
  · exact List.mem_takeWhile_imp hc
  · exact h c (List.mem_reverse.2 hc)

theorem not_digit_of_space {c : Char} (h : isSpaceC c) : isDigitC c = false := by
  rw [isSpaceC] at h
  rw [decide_eq_true_eq] at h
  rcases h with h | h | h | h <;> (subst h; rfl)

theorem span_digit_nil_of_space {l : List Char} (h : ∀ c ∈ l, isSpaceC c) :
    (l.span isDigitC).1 = [] := by
  cases l with
  | nil => rfl
  | cons c r =>
    have hc : isDigitC c = false := not_digit_of_space (h c (List.mem_cons_self _ _))
    rw [List.span_eq_take_drop]
    simp [List.takeWhile, hc]

theorem all_digit_nil_of_space {l : List Char} (h : ∀ c ∈ l, isSpaceC c)
    (hd : l.all isDigitC = true) : l = [] := by
  cases l with
  | nil => rfl
  | cons c r =>
    exfalso
    have hc := List.all_eq_true.1 hd c (List.mem_cons_self _ _)
    rw [not_digit_of_space (h c (List.mem_cons_self _ _))] at hc
    exact Bool.noConfusion hc

theorem parse_time_of_trim_nil {s : String} (h : trimChars s.toList = []) :
    parse_time s = none := by
  have hsp := all_space_of_trim_nil h
  have h1 := span_digit_nil_of_space hsp
  have hcn : patCn s.toList = none := by
    simp only [patCn, h1]
    rw [if_neg (by decide)]
  have hcp : patCompact s.toList = none := by
    rw [patCompact, if_neg ?_]
    intro hc
    have := all_digit_nil_of_space hsp hc.2
    rw [this] at hc
    exact absurd hc.1 (by decide)
  have hco : patColon s.toList = none := by
    simp only [patColon, h1]
    rw [if_neg (by decide)]
  simp only [parse_time, hcn, hcp, hco]

theorem set_timing_fixed_eq (st : SchedState) (umo tv c : String) (now : Nat)
    (htv : trimChars tv.toList ≠ []) :
    set_timing st umo "fixed" tv c now =
      match parse_time tv with
      | none => (st, none)
      | some _ => registerTask st umo "fixed" tv c now := by
  rw [set_timing, if_neg (by decide), if_neg htv, if_pos rfl]

theorem set_timing_interval_eq (st : SchedState) (umo tv c : String) (now : Nat)
    (htv : trimChars tv.toList ≠ []) :
    set_timing st umo "interval" tv c now =
      match parseFloat tv with
      | none => (st, none)
      | some _ => registerTask st umo "interval" tv c now := by
  rw [set_timing, if_neg (by decide), if_neg htv, if_neg (by decide), if_pos (Or.inl rfl)]

theorem set_timing_once_eq (st : SchedState) (umo tv c : String) (now : Nat)
    (htv : trimChars tv.toList ≠ []) :
    set_timing st umo "once" tv c now =
      match parseFloat tv with
      | none => (st, none)
      | some _ => registerTask st umo "once" tv c now := by
  rw [set_timing, if_neg (by decide), if_neg htv, if_neg (by decide), if_pos (Or.inr rfl)]

theorem taskLookup_eq {st : SchedState} {umo tid : String} {d : TaskDict}
    (h : getd st.tasks umo = some d) : taskLookup st umo tid = getd d tid := by
  simp only [taskLookup]
  rw [h]

theorem registerTask_spec (st : SchedState) (umo tt tv c : String) (now : Nat) :
    (registerTask st umo tt tv c now).2 = some (natStr st.next_id) ∧
    taskLookup (registerTask st umo tt tv c now).1 umo (natStr st.next_id) =
      some ⟨tt, tv, "active", now, none, umo⟩ ∧
    (registerTask st umo tt tv c now).1.next_id = st.next_id + 1 := by
  refine ⟨rfl, ?_, rfl⟩
  have htasks : (registerTask st umo tt tv c now).1.tasks =
      modd (if (getd st.tasks umo).isSome then st.tasks else st.tasks ++ [(umo, [])]) umo
        (fun d => setd d (natStr st.next_id) ⟨tt, tv, "active", now, none, umo⟩) := rfl
  cases hg : getd st.tasks umo with
  | some d0 =>
    have hif : (if (getd st.tasks umo).isSome then st.tasks else st.tasks ++ [(umo, [])])
        = st.tasks := by
      rw [hg]
      rfl
    have hgd : getd (registerTask st umo tt tv c now).1.tasks umo =
        some (setd d0 (natStr st.next_id) ⟨tt, tv, "active", now, none, umo⟩) := by
      rw [htasks, hif, getd_modd_self _ hg]
    rw [taskLookup_eq hgd, getd_setd_self]
  | none =>
    have hif : (if (getd st.tasks umo).isSome then st.tasks else st.tasks ++ [(umo, [])])
        = st.tasks ++ [(umo, [])] := by
      rw [hg]
      rfl
    have hg2 : getd (st.tasks ++ [(umo, ([] : TaskDict))]) umo = some [] := by
      rw [getd_append, hg]
      simp [getd]
    have hgd : getd (registerTask st umo tt tv c now).1.tasks umo =
        some (setd [] (natStr st.next_id) ⟨tt, tv, "active", now, none, umo⟩) := by
      rw [htasks, hif, getd_modd_self _ hg2]
    rw [taskLookup_eq hgd, getd_setd_self]

/-- Claim C8: saving the task table (and the parallel content table) to the
persistence store and loading it back yields a table equal in all fields. -/
theorem C8 :
    (∀ tbl : TaskTable, load_tasks_json (save_tasks_json tbl) = tbl) ∧
    (∀ itbl : InfoTable, load_infos_json (save_infos_json itbl) = itbl) := by
  constructor
  · intro tbl
    show (decodeTableEntries (tbl.map (fun e => (e.1, taskDictToJson e.2)))).getD [] = tbl
    rw [decodeTableEntries_roundtrip]
    rfl
  · intro itbl
    show (decodeInfoTableEntries (itbl.map (fun e => (e.1, infoDictToJson e.2)))).getD [] = itbl
    rw [decodeInfoTableEntries_roundtrip]
    rfl

/-- Claim C5, counterexample to the positivity requirement: registering an
`interval` task with the non-positive minute count `-5` succeeds (the code
only checks `float(time_value)` parses), the task is stored active, and the
id is returned — the claim says this must fail with a ValidationError. -/
theorem C5_counterexample :
    (set_timing ⟨[], [], [], [], 0, 1⟩ "s1" "interval" "-5" "hi" 0).2 = some "1" ∧
    taskLookup (set_timing ⟨[], [], [], [], 0, 1⟩ "s1" "interval" "-5" "hi" 0).1 "s1" "1" =
      some ⟨"interval", "-5", "active", 0, none, "s1"⟩ ∧
    parseFloat "-5" = some ⟨-5, 0⟩ :=
  ⟨rfl, rfl, rfl⟩

/-- Claim C5 (amended): registration succeeds exactly when the time
parameter parses for the given kind — for `interval`/`once` any string that
`float(...)` accepts (including zero and negatives; there is no positivity
check), for `fixed` a clock time with hour in [0,23] and minute in [0,59];
any other kind, or a failed parse, leaves the state unchanged and stores
nothing; on success the task is stored with status `active`, `create_time`
`now`, empty `last_run`, and the allocated id `str(next_id)` is returned. -/
theorem C5 (st : SchedState) (umo tv c : String) (now : Nat) :
    (((set_timing st umo "interval" tv c now).2.isSome ↔ (parseFloat tv).isSome) ∧
     ((set_timing st umo "once" tv c now).2.isSome ↔ (parseFloat tv).isSome) ∧
     ((set_timing st umo "fixed" tv c now).2.isSome ↔ (parse_time tv).isSome)) ∧
    (∀ tt : String, tt ≠ "interval" → tt ≠ "once" → tt ≠ "fixed" →
      (set_timing st umo tt tv c now).2 = none) ∧
    (∀ tt : String, (set_timing st umo tt tv c now).2 = none →
      (set_timing st umo tt tv c now).1 = st) ∧
    (∀ tt r, (set_timing st umo tt tv c now).2 = some r →
      r = natStr st.next_id ∧
      taskLookup (set_timing st umo tt tv c now).1 umo (natStr st.next_id) =
        some ⟨tt, tv, "active", now, none, umo⟩ ∧
      (set_timing st umo tt tv c now).1.next_id = st.next_id + 1) := by
  by_cases htv : trimChars tv.toList = []
  · have hpf := parseFloat_of_trim_nil htv
    have hpt := parse_time_of_trim_nil htv
    have hall : ∀ tt : String, trimChars tt.toList ≠ [] →
        set_timing st umo tt tv c now = (st, none) := by
      intro tt h1
      rw [set_timing, if_neg h1, if_pos htv]
    refine ⟨⟨?_, ?_, ?_⟩, ?_, ?_, ?_⟩
    · rw [hall "interval" (by decide), hpf]
      simp
    · rw [hall "once" (by decide), hpf]
      simp
    · rw [hall "fixed" (by decide), hpt]
      simp
    · intro tt _ _ _
      by_cases h1 : trimChars tt.toList = []
      · rw [set_timing, if_pos h1]
      · rw [hall tt h1]
    · intro tt _
      by_cases h1 : trimChars tt.toList = []
      · rw [set_timing, if_pos h1]
      · rw [hall tt h1]
    · intro tt r hr
      by_cases h1 : trimChars tt.toList = []
      · rw [set_timing, if_pos h1] at hr
        exact Option.noConfusion hr
      · rw [hall tt h1] at hr
        exact Option.noConfusion hr
  · refine ⟨⟨?_, ?_, ?_⟩, ?_, ?_, ?_⟩
    · rw [set_timing_interval_eq st umo tv c now htv]
      cases hp : parseFloat tv with
      | none => simp
      | some f => simp [(registerTask_spec st umo "interval" tv c now).1]
    · rw [set_timing_once_eq st umo tv c now htv]
      cases hp : parseFloat tv with
      | none => simp
      | some f => simp [(registerTask_spec st umo "once" tv c now).1]
    · rw [set_timing_fixed_eq st umo tv c now htv]
      cases hp : parse_time tv with
      | none => simp
      | some f => simp [(registerTask_spec st umo "fixed" tv c now).1]
    · intro tt h1 h2 h3
      by_cases h0 : trimChars tt.toList = []
      · rw [set_timing, if_pos h0]
      · rw [set_timing, if_neg h0, if_neg htv, if_neg h3,
          if_neg (fun h4 => h4.elim h1 h2)]
    · intro tt hr
      by_cases h1 : trimChars tt.toList = []
      · rw [set_timing, if_pos h1]
      · by_cases h3 : tt = "fixed"
        · subst h3
          cases hp : parse_time tv with
          | none => rw [set_timing_fixed_eq st umo tv c now htv, hp]
          | some f =>
            rw [set_timing_fixed_eq st umo tv c now htv, hp] at hr
            have hr2 : (registerTask st umo "fixed" tv c now).2 = none := hr
            rw [(registerTask_spec st umo "fixed" tv c now).1] at hr2
            exact Option.noConfusion hr2
        · by_cases h4 : tt = "interval" ∨ tt = "once"
          · have heq : set_timing st umo tt tv c now =
                match parseFloat tv with
                | none => (st, none)
                | some _ => registerTask st umo tt tv c now := by
              rw [set_timing, if_neg h1, if_neg htv, if_neg h3, if_pos h4]
            cases hp : parseFloat tv with
            | none => rw [heq, hp]
            | some f =>
              rw [heq, hp] at hr
              have hr2 : (registerTask st umo tt tv c now).2 = none := hr
              rw [(registerTask_spec st umo tt tv c now).1] at hr2
              exact Option.noConfusion hr2
          · rw [set_timing, if_neg h1, if_neg htv, if_neg h3, if_neg h4]
    · intro tt r hr
      by_cases h1 : trimChars tt.toList = []
      · rw [set_timing, if_pos h1] at hr
        exact Option.noConfusion hr
      · by_cases h3 : tt = "fixed"
        · subst h3
          cases hp : parse_time tv with
          | none =>
            rw [set_timing_fixed_eq st umo tv c now htv, hp] at hr
            exact Option.noConfusion hr
          | some f =>
            rw [set_timing_fixed_eq st umo tv c now htv, hp] at hr
            have hr2 : (registerTask st umo "fixed" tv c now).2 = some r := hr
            obtain ⟨ha, hb, hc⟩ := registerTask_spec st umo "fixed" tv c now
            rw [ha] at hr2
            injection hr2 with hr2
            refine ⟨hr2.symm, ?_, ?_⟩
            · rw [set_timing_fixed_eq st umo tv c now htv, hp]
              exact hb
            · rw [set_timing_fixed_eq st umo tv c now htv, hp]
              exact hc
        · by_cases h4 : tt = "interval" ∨ tt = "once"
          · have heq : set_timing st umo tt tv c now =
                match parseFloat tv with
                | none => (st, none)
                | some _ => registerTask st umo tt tv c now := by
              rw [set_timing, if_neg h1, if_neg htv, if_neg h3, if_pos h4]
            cases hp : parseFloat tv with
            | none =>
              rw [heq, hp] at hr
              exact Option.noConfusion hr
            | some f =>
              rw [heq, hp] at hr
              have hr2 : (registerTask st umo tt tv c now).2 = some r := hr
              obtain ⟨ha, hb, hc⟩ := registerTask_spec st umo tt tv c now
              rw [ha] at hr2
              injection hr2 with hr2
              refine ⟨hr2.symm, ?_, ?_⟩
              · rw [heq, hp]
                exact hb
              · rw [heq, hp]
                exact hc
          · rw [set_timing, if_neg h1, if_neg htv, if_neg h3, if_neg h4] at hr
            exact Option.noConfusion hr

theorem C5_witness :
    taskLookup (set_timing ⟨[], [], [], [], 0, 1⟩ "s1" "interval" "7" "hello" 5).1 "s1" "1" =
      some ⟨"interval", "7", "active", 5, none, "s1"⟩ :=
  ((C5 ⟨[], [], [], [], 0, 1⟩ "s1" "7" "hello" 5).2.2.2 "interval" "1" rfl).2.1

/-- Claim C1: an interval task is due exactly when `last_run` is absent or
`now - last_run ≥ m * 60` seconds; firing sets `last_run := now` and keeps
the task (an interval task is never removed); and the concrete scenario —
an `interval 5` task registered (and first evaluated, since `last_run` is
absent) at `t0 = 0` does not fire at `t0+4m`, fires at `t0+5m` with
`last_run = t0+5m`, does not fire at `t0+9m59s`, and fires again at
`t0+10m`. -/
theorem C1 :
    (∀ (now : Nat) (iv : Dec), intervalDue none now iv = true) ∧
    (∀ (l now : Nat) (iv : Dec),
      intervalDue (some l) now iv = true ↔ realOf iv * 60 ≤ (now : ℚ) - (l : ℚ)) ∧
    (∀ (ok : String → Bool) (evs : List String) (now cd : Nat) (umo : String)
      (acc : ProcAcc) (tid : String) (task : TaskRec) (iv : Dec),
      task.status = "active" → task.type = "interval" → parseFloat task.time = some iv →
      intervalDue task.last_run now iv = true →
      procEntry ok evs now cd umo acc (tid, task) =
        { acc with
            kept := acc.kept ++ [(tid, { task with last_run := some now })],
            disps := acc.disps ++ [(umo, tid, send_task_message acc.infos evs ok umo tid)] }) ∧
    (∀ (ok : String → Bool) (evs : List String) (now cd : Nat) (umo : String)
      (acc : ProcAcc) (tid : String) (task : TaskRec) (iv : Dec),
      task.status = "active" → task.type = "interval" → parseFloat task.time = some iv →
      intervalDue task.last_run now iv = false →
      procEntry ok evs now cd umo acc (tid, task) =
        { acc with kept := acc.kept ++ [(tid, task)] }) ∧
    ((runTicks adapterAll c1State [0, 240]).2 = [("s1", "1", some "hi")] ∧
     (runTicks adapterAll c1State [0, 240, 300]).2 =
       [("s1", "1", some "hi"), ("s1", "1", some "hi")] ∧
     (taskLookup (runTicks adapterAll c1State [0, 240, 300]).1 "s1" "1").map TaskRec.last_run =
       some (some 300) ∧
     (runTicks adapterAll c1State [0, 240, 300, 599]).2 =
       [("s1", "1", some "hi"), ("s1", "1", some "hi")] ∧
     (runTicks adapterAll c1State [0, 240, 300, 599, 600]).2 =
       [("s1", "1", some "hi"), ("s1", "1", some "hi"), ("s1", "1", some "hi")] ∧
     taskLookup (runTicks adapterAll c1State [0, 240, 300, 599, 600]).1 "s1" "1" =
       some ⟨"interval", "5", "active", 0, some 600, "s1"⟩) := by
  refine ⟨fun now iv => rfl, fun l now iv => intervalDue_some_iff l now iv,
    ?_, ?_, rfl, rfl, rfl, rfl, rfl, rfl⟩
  · intro ok evs now cd umo acc tid task iv hs ht hp hdue
    exact procEntry_interval_due ok evs now cd umo acc tid task iv hs ht hp hdue
  · intro ok evs now cd umo acc tid task iv hs ht hp hdue
    exact procEntry_interval_notdue ok evs now cd umo acc tid task iv hs ht hp hdue

theorem C1_witness :
    procEntry adapterAll ["s1"] 0 0 "s1" ⟨[], [], [("s1", [("1", "hi")])], []⟩ ("1", c1Task) =
      { kept := [("1", { c1Task with last_run := some 0 })],
        executed := [],
        infos := [("s1", [("1", "hi")])],
        disps := [("s1", "1",
          send_task_message [("s1", [("1", "hi")])] ["s1"] adapterAll "s1" "1")] } :=
  C1.2.2.1 adapterAll ["s1"] 0 0 "s1" ⟨[], [], [("s1", [("1", "hi")])], []⟩ "1" c1Task
    ⟨5, 0⟩ rfl rfl rfl rfl

/-! ## Effect of a tick on one due task whose send cannot deliver -/

theorem tick_interval_due_nosend (ok : String → Bool) (st : SchedState) (now : Nat)
    {umo tid : String} {task : TaskRec} {iv : Dec}
    (hWF : tableWF st.tasks) (hp : taskLookup st umo tid = some task)
    (hs : task.status = "active") (ht : task.type = "interval")
    (hpf : parseFloat task.time = some iv)
    (hdue : intervalDue task.last_run now iv = true)
    (hsend : ∀ i, send_task_message i st.session_events ok umo tid = none) :
    dispsFor (tick ok st now).2 umo tid = [none] ∧
    taskLookup (tick ok st now).1 umo tid = some { task with last_run := some now } := by
  obtain ⟨accPre, _, _, hkept, hdpre, hdisp, hlook, _, _⟩ := tick_at ok st now hWF hp
  rw [procEntry_interval_due ok st.session_events now (dtDay now) umo accPre tid task iv
    hs ht hpf hdue] at hdisp hlook
  constructor
  · rw [hdisp]
    show dispsFor (accPre.disps ++ [(umo, tid, _)]) umo tid = [none]
    rw [dispsFor_append, hdpre, hsend accPre.infos]
    simp [dispsFor]
  · rw [hlook]
    show getd (accPre.kept ++ [(tid, { task with last_run := some now })]) tid = _
    rw [getd_append_left _ hkept, getd_cons_self]

theorem tick_once_due_nosend (ok : String → Bool) (st : SchedState) (now : Nat)
    {umo tid : String} {task : TaskRec} {dl : Dec}
    (hWF : tableWF st.tasks) (hp : taskLookup st umo tid = some task)
    (hs : task.status = "active") (ht : task.type = "once")
    (hpf : parseFloat task.time = some dl)
    (hdue : onceDue task.create_time now dl = true)
    (hsend : ∀ i, send_task_message i st.session_events ok umo tid = none) :
    dispsFor (tick ok st now).2 umo tid = [none] ∧
    taskLookup (tick ok st now).1 umo tid = none := by
  obtain ⟨accPre, _, _, hkept, hdpre, hdisp, hlook, _, _⟩ := tick_at ok st now hWF hp
  rw [procEntry_once_due ok st.session_events now (dtDay now) umo accPre tid task dl
    hs ht hpf hdue] at hdisp hlook
  constructor
  · rw [hdisp]
    show dispsFor (accPre.disps ++ [(umo, tid, _)]) umo tid = [none]
    rw [dispsFor_append, hdpre, hsend accPre.infos]
    simp [dispsFor]
  · rw [hlook]
    show getd accPre.kept tid = none
    exact getd_eq_none hkept

/-- Claim C4, counterexample: with a failing delivery adapter, the due
interval task's dispatch delivers nothing (`none` in the log — the error
was caught), yet `last_run` IS set to `now`; the claim says the task state
is left unchanged. -/
theorem C4_counterexample :
    (tick (fun _ => false) c1State 0).2 = [("s1", "1", none)] ∧
    taskLookup (tick (fun _ => false) c1State 0).1 "s1" "1" =
      some ⟨"interval", "5", "active", 0, some 0, "s1"⟩ ∧
    c1Task.last_run = none :=
  ⟨rfl, rfl, rfl⟩

/-- Claim C4 (amended): a dispatch failure (adapter error) is caught inside
`send_task_message` and logged, so the loop survives; but the caller cannot
see the failure, so the on-fire update is applied anyway: a due interval
task still gets `last_run = now` and a due once task is still deleted — the
failed send is not retried. -/
theorem C4 :
    (∀ (i : InfoTable) (evs : List String) (ok : String → Bool) (umo tid : String),
      ok umo = false → send_task_message i evs ok umo tid = none) ∧
    (∀ (ok : String → Bool) (st : SchedState) (now : Nat) (umo tid : String)
      (task : TaskRec) (iv : Dec),
      tableWF st.tasks → taskLookup st umo tid = some task →
      task.status = "active" → task.type = "interval" →
      parseFloat task.time = some iv → intervalDue task.last_run now iv = true →
      ok umo = false →
      dispsFor (tick ok st now).2 umo tid = [none] ∧
      taskLookup (tick ok st now).1 umo tid = some { task with last_run := some now }) ∧
    (∀ (ok : String → Bool) (st : SchedState) (now : Nat) (umo tid : String)
      (task : TaskRec) (dl : Dec),
      tableWF st.tasks → taskLookup st umo tid = some task →
      task.status = "active" → task.type = "once" →
      parseFloat task.time = some dl → onceDue task.create_time now dl = true →
      ok umo = false →
      dispsFor (tick ok st now).2 umo tid = [none] ∧
      taskLookup (tick ok st now).1 umo tid = none) := by
  refine ⟨fun i evs ok umo tid h => send_adapter_fail h, ?_, ?_⟩
  · intro ok st now umo tid task iv hWF hp hs ht hpf hdue hfail
    exact tick_interval_due_nosend ok st now hWF hp hs ht hpf hdue
      (fun i => send_adapter_fail hfail)
  · intro ok st now umo tid task dl hWF hp hs ht hpf hdue hfail
    exact tick_once_due_nosend ok st now hWF hp hs ht hpf hdue
      (fun i => send_adapter_fail hfail)

theorem C4_witness :
    dispsFor (tick (fun _ => false) c1State 0).2 "s1" "1" = [none] ∧
    taskLookup (tick (fun _ => false) c1State 0).1 "s1" "1" =
      some { c1Task with last_run := some 0 } :=
  C4.2.1 (fun _ => false) c1State 0 "s1" "1" c1Task ⟨5, 0⟩
    (by constructor <;> decide) rfl rfl rfl rfl rfl rfl

/-- Claim C10: with no stored event context for the session (for example
right after a restart), a due task's dispatch sends nothing, yet the
scheduler still applies the on-fire update: a due interval task gets
`last_run = now`, and a due once task is deleted without its message ever
having been sent.  A tick never adds event contexts. -/
theorem C10 :
    (∀ (i : InfoTable) (evs : List String) (ok : String → Bool) (umo tid : String),
      umo ∉ evs → send_task_message i evs ok umo tid = none) ∧
    (∀ (ok : String → Bool) (st : SchedState) (now : Nat) (umo tid : String)
      (task : TaskRec) (iv : Dec),
      tableWF st.tasks → taskLookup st umo tid = some task →
      task.status = "active" → task.type = "interval" →
      parseFloat task.time = some iv → intervalDue task.last_run now iv = true →
      umo ∉ st.session_events →
      dispsFor (tick ok st now).2 umo tid = [none] ∧
      taskLookup (tick ok st now).1 umo tid = some { task with last_run := some now }) ∧
    (∀ (ok : String → Bool) (st : SchedState) (now : Nat) (umo tid : String)
      (task : TaskRec) (dl : Dec),
      tableWF st.tasks → taskLookup st umo tid = some task →
      task.status = "active" → task.type = "once" →
      parseFloat task.time = some dl → onceDue task.create_time now dl = true →
      umo ∉ st.session_events →
      dispsFor (tick ok st now).2 umo tid = [none] ∧
      taskLookup (tick ok st now).1 umo tid = none) ∧
    (∀ (ok : String → Bool) (st : SchedState) (now : Nat),
      (tick ok st now).1.session_events = st.session_events) := by
  refine ⟨fun i evs ok umo tid h => send_no_event h, ?_, ?_, fun ok st now => rfl⟩
  · intro ok st now umo tid task iv hWF hp hs ht hpf hdue hev
    exact tick_interval_due_nosend ok st now hWF hp hs ht hpf hdue
      (fun i => send_no_event hev)
  · intro ok st now umo tid task dl hWF hp hs ht hpf hdue hev
    exact tick_once_due_nosend ok st now hWF hp hs ht hpf hdue
      (fun i => send_no_event hev)

theorem C10_witness :
    dispsFor (tick adapterAll c10State 0).2 "s1" "1" = [none] ∧
    taskLookup (tick adapterAll c10State 0).1 "s1" "1" =
      some { c1Task with last_run := some 0 } :=
  C10.2.1 adapterAll c10State 0 "s1" "1" c1Task ⟨5, 0⟩
    (by constructor <;> decide) rfl rfl rfl rfl rfl (by simp [c10State])

/-! ## Decomposition of multi-tick runs -/

theorem runTicks_acc (ok : String → Bool) : ∀ (ts : List Nat) (s : SchedState) (l : List Disp),
    ts.foldl (fun p t => let r := tick ok p.1 t; (r.1, p.2 ++ r.2)) (s, l) =
      ((runTicks ok s ts).1, l ++ (runTicks ok s ts).2) := by
  intro ts
  induction ts with
  | nil =>
    intro s l
    simp [runTicks]
  | cons t ts ih =>
    intro s l
    rw [List.foldl_cons]
    show (ts.foldl (fun p t => let r := tick ok p.1 t; (r.1, p.2 ++ r.2))
      ((tick ok s t).1, l ++ (tick ok s t).2)) = _
    rw [ih]
    have h2 : runTicks ok s (t :: ts) =
        ((runTicks ok (tick ok s t).1 ts).1,
         [] ++ (tick ok s t).2 ++ (runTicks ok (tick ok s t).1 ts).2) := by
      show (ts.foldl (fun p t => let r := tick ok p.1 t; (r.1, p.2 ++ r.2))
        ((tick ok s t).1, [] ++ (tick ok s t).2)) = _
      rw [ih]
    rw [h2]
    simp

theorem runTicks_cons (ok : String → Bool) (st : SchedState) (t : Nat) (ts : List Nat) :
    runTicks ok st (t :: ts) =
      ((runTicks ok (tick ok st t).1 ts).1,
       (tick ok st t).2 ++ (runTicks ok (tick ok st t).1 ts).2) := by
  show (ts.foldl (fun p t => let r := tick ok p.1 t; (r.1, p.2 ++ r.2))
    ((tick ok st t).1, [] ++ (tick ok st t).2)) = _
  rw [runTicks_acc]
  simp

/-! ## A paused task is inert and untouched -/

theorem tick_paused (ok : String → Bool) (st : SchedState) (now : Nat)
    {umo tid : String} {task : TaskRec}
    (hWF : tableWF st.tasks) (hp : taskLookup st umo tid = some task)
    (hs : task.status ≠ "active") :
    dispsFor (tick ok st now).2 umo tid = [] ∧
    taskLookup (tick ok st now).1 umo tid = some task := by
  obtain ⟨accPre, _, _, hkept, hdpre, hdisp, hlook, _, _⟩ := tick_at ok st now hWF hp
  rw [procEntry_paused ok st.session_events now (dtDay now) umo accPre tid task hs]
    at hdisp hlook
  constructor
  · rw [hdisp]
    exact hdpre
  · rw [hlook]
    show getd (accPre.kept ++ [(tid, task)]) tid = _
    rw [getd_append_left _ hkept, getd_cons_self]

theorem runTicks_paused (ok : String → Bool) :
    ∀ (ts : List Nat) (st : SchedState) {umo tid : String} {task : TaskRec},
    tableWF st.tasks → taskLookup st umo tid = some task → task.status ≠ "active" →
    dispsFor (runTicks ok st ts).2 umo tid = [] ∧
    taskLookup (runTicks ok st ts).1 umo tid = some task := by
  intro ts
  induction ts with
  | nil =>
    intro st umo tid task _ hp _
    exact ⟨rfl, hp⟩
  | cons t ts ih =>
    intro st umo tid task hWF hp hs
    obtain ⟨h1, h2⟩ := tick_paused ok st t hWF hp hs
    obtain ⟨h3, h4⟩ := ih (tick ok st t).1 (tick_tableWF ok st t hWF) h2 hs
    rw [runTicks_cons]
    constructor
    · rw [dispsFor_append, h1, h3]
      rfl
    · exact h4

/-! ## Status is only written by the explicit operations -/

theorem enable_spec (st : SchedState) (umo : String) (n : Nat) {task : TaskRec}
    (hp : taskLookup st umo (natStr n) = some task) :
    (enable_task st umo n).2 = true ∧
    taskLookup (enable_task st umo n).1 umo (natStr n) =
      some { task with status := "active" } := by
  rw [taskLookup] at hp
  cases hg : getd st.tasks umo with
  | none => rw [hg] at hp; exact Option.noConfusion hp
  | some d =>
    rw [hg] at hp
    have hp2 : getd d (natStr n) = some task := hp
    have hcond : (getd d (natStr n)).isSome = true := by rw [hp2]; rfl
    have h1 : enable_task st umo n =
        ({ st with
            tasks := modd st.tasks umo
              (fun d2 => modd d2 (natStr n) (fun t => { t with status := "active" })),
            session_events := addEvent st.session_events umo }, true) := by
      simp [enable_task, hg, hcond]
    rw [h1]
    refine ⟨rfl, ?_⟩
    show (match getd (modd st.tasks umo
        (fun d2 => modd d2 (natStr n) (fun t => { t with status := "active" }))) umo with
      | none => none
      | some dd => getd dd (natStr n)) = some { task with status := "active" }
    rw [getd_modd_self _ hg]
    show getd (modd d (natStr n) (fun t => { t with status := "active" })) (natStr n) =
      some { task with status := "active" }
    rw [getd_modd_self _ hp2]

theorem pause_spec (st : SchedState) (umo : String) (n : Nat) {task : TaskRec}
    (hp : taskLookup st umo (natStr n) = some task) :
    (pause_task st umo n).2 = true ∧
    taskLookup (pause_task st umo n).1 umo (natStr n) =
      some { task with status := "paused" } := by
  rw [taskLookup] at hp
  cases hg : getd st.tasks umo with
  | none => rw [hg] at hp; exact Option.noConfusion hp
  | some d =>
    rw [hg] at hp
    have hp2 : getd d (natStr n) = some task := hp
    have hcond : (getd d (natStr n)).isSome = true := by rw [hp2]; rfl
    have h1 : pause_task st umo n =
        ({ st with
            tasks := modd st.tasks umo
              (fun d2 => modd d2 (natStr n) (fun t => { t with status := "paused" })),
            session_events := addEvent st.session_events umo }, true) := by
      simp [pause_task, hg, hcond]
    rw [h1]
    refine ⟨rfl, ?_⟩
    show (match getd (modd st.tasks umo
        (fun d2 => modd d2 (natStr n) (fun t => { t with status := "paused" }))) umo with
      | none => none
      | some dd => getd dd (natStr n)) = some { task with status := "paused" }
    rw [getd_modd_self _ hg]
    show getd (modd d (natStr n) (fun t => { t with status := "paused" })) (natStr n) =
      some { task with status := "paused" }
    rw [getd_modd_self _ hp2]

/-- Claim C6: a task whose status is not `active` (i.e. `paused`) is never
dispatched on any run of ticks and its stored record is completely
untouched by the scheduler; a tick changes no task's status; `enable_task`
sets the status back to `active` and changes nothing else — in particular
`last_run` is not reset; `pause_task` symmetrically sets `paused`. -/
theorem C6 :
    (∀ (ok : String → Bool) (ts : List Nat) (st : SchedState) (umo tid : String)
      (task : TaskRec),
      tableWF st.tasks → taskLookup st umo tid = some task → task.status ≠ "active" →
      dispsFor (runTicks ok st ts).2 umo tid = [] ∧
      taskLookup (runTicks ok st ts).1 umo tid = some task) ∧
    (∀ (ok : String → Bool) (st : SchedState) (now : Nat) (umo tid : String)
      (t2 : TaskRec),
      tableWF st.tasks → taskLookup (tick ok st now).1 umo tid = some t2 →
      ∃ t, taskLookup st umo tid = some t ∧ t2.status = t.status) ∧
    (∀ (st : SchedState) (umo : String) (n : Nat) (task : TaskRec),
      taskLookup st umo (natStr n) = some task →
      (enable_task st umo n).2 = true ∧
      taskLookup (enable_task st umo n).1 umo (natStr n) =
        some { task with status := "active" } ∧
      ({ task with status := "active" } : TaskRec).last_run = task.last_run) ∧
    (∀ (st : SchedState) (umo : String) (n : Nat) (task : TaskRec),
      taskLookup st umo (natStr n) = some task →
      (pause_task st umo n).2 = true ∧
      taskLookup (pause_task st umo n).1 umo (natStr n) =
        some { task with status := "paused" }) := by
  refine ⟨?_, ?_, ?_, ?_⟩
  · intro ok ts st umo tid task hWF hp hs
    exact runTicks_paused ok ts st hWF hp hs
  · intro ok st now umo tid t2 hWF h
    obtain ⟨t, ht, hm⟩ := tick_lookup_rev ok st now hWF h
    exact ⟨t, ht, hm.2.2.1⟩
  · intro st umo n task hp
    obtain ⟨h1, h2⟩ := enable_spec st umo n hp
    exact ⟨h1, h2, rfl⟩
  · intro st umo n task hp
    exact pause_spec st umo n hp

theorem C6_witness :
    dispsFor (runTicks adapterAll c6State [0, 240, 300]).2 "s1" "1" = [] ∧
    taskLookup (runTicks adapterAll c6State [0, 240, 300]).1 "s1" "1" =
      some { c1Task with status := "paused" } :=
  C6.1 adapterAll [0, 240, 300] c6State "s1" "1" { c1Task with status := "paused" }
    (by constructor <;> decide) rfl (by decide)

/-! ## Blank content never produces a delivery -/

theorem mem_dispsFor {l : List Disp} {umo tid : String} {p : Option String}
    (h : p ∈ dispsFor l umo tid) :
    ∃ x ∈ l, x.1 = umo ∧ x.2.1 = tid ∧ x.2.2 = p := by
  rw [dispsFor, List.mem_filterMap] at h
  obtain ⟨x, hx, hfx⟩ := h
  by_cases hc : x.1 = umo ∧ x.2.1 = tid
  · rw [if_pos hc] at hfx
    injection hfx with hfx
    exact ⟨x, hx, hc.1, hc.2, hfx⟩
  · rw [if_neg hc] at hfx
    exact Option.noConfusion hfx

theorem procEntry_blank_inv (ok : String → Bool) (evs : List String) (now cd : Nat)
    (u umo tid : String) (acc : ProcAcc) (e : String × TaskRec)
    (hb : contentBlank acc.infos umo tid)
    (hd : ∀ x ∈ acc.disps, x.1 = umo → x.2.1 = tid → x.2.2 = none) :
    contentBlank (procEntry ok evs now cd u acc e).infos umo tid ∧
    (∀ x ∈ (procEntry ok evs now cd u acc e).disps,
      x.1 = umo → x.2.1 = tid → x.2.2 = none) := by
  obtain ⟨tid0, task0⟩ := e
  obtain ⟨K, X, I, DS, heq, _, hDS, hI⟩ := procEntry_shape ok evs now cd u acc tid0 task0
  rw [heq]
  constructor
  · show contentBlank I umo tid
    rcases hI with rfl | rfl
    · exact hb
    · exact contentBlank_delInfo hb
  · show ∀ x ∈ acc.disps ++ DS, x.1 = umo → x.2.1 = tid → x.2.2 = none
    intro x hx h1 h2
    rcases List.mem_append.1 hx with hx | hx
    · exact hd x hx h1 h2
    · rcases hDS with rfl | rfl
      · simp at hx
      · simp only [List.mem_singleton] at hx
        subst hx
        show send_task_message acc.infos evs ok u tid0 = none
        rw [show u = umo from h1, show tid0 = tid from h2]
        exact send_of_blank hb

theorem foldl_blank_inv (ok : String → Bool) (evs : List String) (now cd : Nat)
    (u umo tid : String) : ∀ (d : TaskDict) (acc : ProcAcc),
    contentBlank acc.infos umo tid →
    (∀ x ∈ acc.disps, x.1 = umo → x.2.1 = tid → x.2.2 = none) →
    contentBlank (d.foldl (procEntry ok evs now cd u) acc).infos umo tid ∧
    (∀ x ∈ (d.foldl (procEntry ok evs now cd u) acc).disps,
      x.1 = umo → x.2.1 = tid → x.2.2 = none) := by
  intro d
  induction d with
  | nil => intro acc hb hd; exact ⟨hb, hd⟩
  | cons e r ih =>
    intro acc hb hd
    rw [List.foldl_cons]
    obtain ⟨hb2, hd2⟩ := procEntry_blank_inv ok evs now cd u umo tid acc e hb hd
    exact ih (procEntry ok evs now cd u acc e) hb2 hd2

theorem tick_blank_inv (ok : String → Bool) (st : SchedState) (now : Nat)
    (umo tid : String) (hb : contentBlank st.infos umo tid) :
    contentBlank (tick ok st now).1.infos umo tid ∧
    (∀ x ∈ (tick ok st now).2, x.1 = umo → x.2.1 = tid → x.2.2 = none) := by
  suffices h : ∀ (ss : TaskTable) (a : TickAcc), contentBlank a.infos umo tid →
      (∀ x ∈ a.disps, x.1 = umo → x.2.1 = tid → x.2.2 = none) →
      contentBlank
        (ss.foldl (tickStep ok st.session_events now (dtDay now)) a).infos umo tid ∧
      (∀ x ∈ (ss.foldl (tickStep ok st.session_events now (dtDay now)) a).disps,
        x.1 = umo → x.2.1 = tid → x.2.2 = none) by
    exact h st.tasks
      ⟨[], if dtDay now ≠ st.last_day then [] else st.executed_tasks, st.infos, []⟩
      hb (by simp)
  intro ss
  induction ss with
  | nil => intro a hb2 hd2; exact ⟨hb2, hd2⟩
  | cons s ss ih =>
    intro a hb2 hd2
    rw [List.foldl_cons]
    obtain ⟨hb3, hd3⟩ := foldl_blank_inv ok st.session_events now (dtDay now) s.1 umo tid
      s.2 ⟨[], a.executed, a.infos, []⟩ hb2 (by simp)
    refine ih (tickStep ok st.session_events now (dtDay now) a s) ?_ ?_
    · exact hb3
    · show ∀ x ∈ a.disps ++ (sessionStep ok st.session_events now (dtDay now)
        s.1 a.executed a.infos s.2).disps, x.1 = umo → x.2.1 = tid → x.2.2 = none
      intro x hx h1 h2
      rcases List.mem_append.1 hx with hx | hx
      · exact hd2 x hx h1 h2
      · exact hd3 x hx h1 h2

/-- Claim C9: a task whose stored content is empty (or absent) never has a
message delivered for it — every dispatch-log entry for that task over any
run of ticks carries `none`, whatever the trigger kind; and the content
stays blank (the scheduler only ever deletes info entries). -/
theorem C9 (ok : String → Bool) (ts : List Nat) (st : SchedState) (umo tid : String)
    (hb : contentBlank st.infos umo tid) :
    (∀ p ∈ dispsFor (runTicks ok st ts).2 umo tid, p = none) ∧
    contentBlank (runTicks ok st ts).1.infos umo tid := by
  induction ts generalizing st with
  | nil =>
    refine ⟨?_, hb⟩
    intro p hp
    simp [runTicks, dispsFor] at hp
  | cons t ts ih =>
    obtain ⟨hb2, hd2⟩ := tick_blank_inv ok st t umo tid hb
    obtain ⟨h1, h2⟩ := ih (tick ok st t).1 hb2
    rw [runTicks_cons]
    refine ⟨?_, h2⟩
    intro p hp
    rw [dispsFor_append] at hp
    rcases List.mem_append.1 hp with hp | hp
    · obtain ⟨x, hx, ha, hbb, hc⟩ := mem_dispsFor hp
      rw [← hc]
      exact hd2 x hx ha hbb
    · exact h1 p hp

theorem C9_witness :
    (∀ p ∈ dispsFor (runTicks adapterAll c9State [0, 240, 300]).2 "s1" "1", p = none) ∧
    contentBlank (runTicks adapterAll c9State [0, 240, 300]).1.infos "s1" "1" :=
  C9 adapterAll [0, 240, 300] c9State "s1" "1" (by
    intro p hp h1 q hq h2
    simp [c9State] at hp
    subst hp
    simp at hq
    subst hq
    rfl)

/-! ## Once tasks: terminal removal and at-most-one dispatch -/

theorem tick_once_removal (ok : String → Bool) (st : SchedState) (now : Nat)
    {umo tid : String} {task : TaskRec} {dl : Dec}
    (hWF : tableWF st.tasks) (hiWF : infosWF st.infos)
    (hp : taskLookup st umo tid = some task)
    (hs : task.status = "active") (ht : task.type = "once")
    (hpf : parseFloat task.time = some dl)
    (hdue : onceDue task.create_time now dl = true) :
    taskLookup (tick ok st now).1 umo tid = none ∧
    infoAbsent (tick ok st now).1.infos umo tid ∧
    (dispsFor (tick ok st now).2 umo tid).length = 1 := by
  obtain ⟨accPre, _, hinf, hkept, hdpre, hdisp, hlook, _, hinfR⟩ := tick_at ok st now hWF hp
  rw [procEntry_once_due ok st.session_events now (dtDay now) umo accPre tid task dl
    hs ht hpf hdue] at hdisp hlook hinfR
  refine ⟨?_, ?_, ?_⟩
  · rw [hlook]
    exact getd_eq_none hkept
  · refine infoAbsent_reach hinfR ?_
    show infoAbsent (delInfo accPre.infos umo tid) umo tid
    have hiWF2 : infosWF accPre.infos := infosWF_reach hinf hiWF
    intro d hd
    rw [getd_delInfo_self] at hd
    cases hg : getd accPre.infos umo with
    | none => rw [hg] at hd; exact Option.noConfusion hd
    | some d0 =>
      rw [hg] at hd
      injection hd with hd
      subst hd
      exact getd_deld_self (hiWF2 (umo, d0) (getd_mem hg))
  · rw [hdisp]
    show (dispsFor (accPre.disps ++ [(umo, tid, _)]) umo tid).length = 1
    rw [dispsFor_append, hdpre]
    simp [dispsFor]

theorem runTicks_absent (ok : String → Bool) :
    ∀ (ts : List Nat) (st : SchedState) {umo tid : String},
    tableWF st.tasks → taskLookup st umo tid = none →
    dispsFor (runTicks ok st ts).2 umo tid = [] ∧
    taskLookup (runTicks ok st ts).1 umo tid = none := by
  intro ts
  induction ts with
  | nil => intro st umo tid _ hp; exact ⟨rfl, hp⟩
  | cons t ts ih =>
    intro st umo tid hWF hp
    obtain ⟨h3, h4⟩ := ih (tick ok st t).1 (tick_tableWF ok st t hWF)
      (tick_lookup_absent ok st t hp)
    rw [runTicks_cons]
    constructor
    · rw [dispsFor_append, tick_disps_absent ok st t hWF hp, h3]
      rfl
    · exact h4

theorem runTicks_once_count (ok : String → Bool) :
    ∀ (ts : List Nat) (st : SchedState) {umo tid : String} {task : TaskRec},
    tableWF st.tasks → taskLookup st umo tid = some task → task.type = "once" →
    (dispsFor (runTicks ok st ts).2 umo tid).length ≤ 1 := by
  intro ts
  induction ts with
  | nil =>
    intro st umo tid task _ _ _
    simp [runTicks, dispsFor]
  | cons t ts ih =>
    intro st umo tid task hWF hp ht
    obtain ⟨accPre, _, _, hkept, hdpre, hdisp, hlook, _, _⟩ := tick_at ok st t hWF hp
    have hWF2 := tick_tableWF ok st t hWF
    rw [runTicks_cons, dispsFor_append, List.length_append]
    have keepCase : ∀ (heq : procEntry ok st.session_events t (dtDay t) umo accPre
        (tid, task) = { accPre with kept := accPre.kept ++ [(tid, task)] }),
        (dispsFor (tick ok st t).2 umo tid).length +
          (dispsFor (runTicks ok (tick ok st t).1 ts).2 umo tid).length ≤ 1 := by
      intro heq
      rw [heq] at hdisp hlook
      have h0 : (dispsFor (tick ok st t).2 umo tid).length = 0 := by
        rw [hdisp]
        show (dispsFor accPre.disps umo tid).length = 0
        rw [hdpre]
        rfl
      have hlook2 : taskLookup (tick ok st t).1 umo tid = some task := by
        rw [hlook]
        show getd (accPre.kept ++ [(tid, task)]) tid = some task
        rw [getd_append_left _ hkept, getd_cons_self]
      rw [h0]
      simpa using ih (tick ok st t).1 hWF2 hlook2 ht
    by_cases hs : task.status = "active"
    · cases hpf : parseFloat task.time with
      | none =>
        exact keepCase (procEntry_once_badparse ok st.session_events t (dtDay t) umo
          accPre tid task hs ht hpf)
      | some dl =>
        cases hdue : onceDue task.create_time t dl with
        | false =>
          exact keepCase (procEntry_once_notdue ok st.session_events t (dtDay t) umo
            accPre tid task dl hs ht hpf hdue)
        | true =>
          rw [procEntry_once_due ok st.session_events t (dtDay t) umo accPre tid task dl
            hs ht hpf hdue] at hdisp hlook
          have h1 : (dispsFor (tick ok st t).2 umo tid).length = 1 := by
            rw [hdisp]
            show (dispsFor (accPre.disps ++ [(umo, tid, _)]) umo tid).length = 1
            rw [dispsFor_append, hdpre]
            simp [dispsFor]
          have hlook2 : taskLookup (tick ok st t).1 umo tid = none := by
            rw [hlook]
            exact getd_eq_none hkept
          rw [h1, (runTicks_absent ok ts (tick ok st t).1 hWF2 hlook2).1]
          rfl
    · exact keepCase (procEntry_paused ok st.session_events t (dtDay t) umo
        accPre tid task hs)

/-- Claim C3: a once task is due exactly when `now ≥ created_at + delay`
minutes; at most one dispatch ever occurs for it over any run of ticks;
the tick that fires it removes the task and its content-table entry, so a
subsequent lookup returns NotFound (`none`) — and an absent task stays
absent and silent forever. -/
theorem C3 :
    (∀ (ct now : Nat) (dl : Dec),
      onceDue ct now dl = true ↔ (ct : ℚ) + realOf dl * 60 ≤ (now : ℚ)) ∧
    (∀ (ok : String → Bool) (st : SchedState) (now : Nat) (umo tid : String)
      (task : TaskRec) (dl : Dec),
      tableWF st.tasks → infosWF st.infos → taskLookup st umo tid = some task →
      task.status = "active" → task.type = "once" → parseFloat task.time = some dl →
      onceDue task.create_time now dl = true →
      taskLookup (tick ok st now).1 umo tid = none ∧
      infoAbsent (tick ok st now).1.infos umo tid ∧
      (dispsFor (tick ok st now).2 umo tid).length = 1) ∧
    (∀ (ok : String → Bool) (ts : List Nat) (st : SchedState) (umo tid : String)
      (task : TaskRec),
      tableWF st.tasks → taskLookup st umo tid = some task → task.type = "once" →
      (dispsFor (runTicks ok st ts).2 umo tid).length ≤ 1) ∧
    (∀ (ok : String → Bool) (ts : List Nat) (st : SchedState) (umo tid : String),
      tableWF st.tasks → taskLookup st umo tid = none →
      dispsFor (runTicks ok st ts).2 umo tid = [] ∧
      taskLookup (runTicks ok st ts).1 umo tid = none) := by
  refine ⟨fun ct now dl => onceDue_iff ct now dl, ?_, ?_, ?_⟩
  · intro ok st now umo tid task dl hWF hiWF hp hs ht hpf hdue
    exact tick_once_removal ok st now hWF hiWF hp hs ht hpf hdue
  · intro ok ts st umo tid task hWF hp ht
    exact runTicks_once_count ok ts st hWF hp ht
  · intro ok ts st umo tid hWF hp
    exact runTicks_absent ok ts st hWF hp

theorem C3_witness :
    taskLookup (tick adapterAll c3State 650).1 "s3" "7" = none ∧
    infoAbsent (tick adapterAll c3State 650).1.infos "s3" "7" ∧
    (dispsFor (tick adapterAll c3State 650).2 "s3" "7").length = 1 :=
  C3.2.1 adapterAll c3State 650 "s3" "7" c3Task ⟨10, 0⟩
    (by constructor <;> decide) (by intro p hp; simp [c3State] at hp; subst hp; decide)
    rfl rfl rfl rfl rfl

/-! ## Fixed tasks: at most one dispatch per calendar day -/

theorem fixed_day_core (ok : String → Bool) (umo tid : String) (h m d : Nat) :
    ∀ (ts : List Nat) (st : SchedState) (task : TaskRec),
    tableWF st.tasks → taskLookup st umo tid = some task →
    task.type = "fixed" → parse_time task.time = some (h, m) →
    (∀ t ∈ ts, dtDay t = d) →
    ((execId umo tid d h m ∈ st.executed_tasks ∧ st.last_day = d →
       dispsFor (runTicks ok st ts).2 umo tid = []) ∧
     (dispsFor (runTicks ok st ts).2 umo tid).length ≤ 1) := by
  intro ts
  induction ts with
  | nil =>
    intro st task _ _ _ _ _
    exact ⟨fun _ => rfl, by simp [runTicks, dispsFor]⟩
  | cons t ts ih =>
    intro st task hWF hp ht hpt hdays
    have hd : dtDay t = d := hdays t (List.mem_cons_self _ _)
    have hdays2 : ∀ t2 ∈ ts, dtDay t2 = d := fun t2 h2 => hdays t2 (List.mem_cons_of_mem _ h2)
    obtain ⟨accPre, ⟨X0, hex0⟩, _, hkept, hdpre, hdisp, hlook, ⟨Y, hexec⟩, _⟩ :=
      tick_at ok st t hWF hp
    have hWF2 := tick_tableWF ok st t hWF
    have hld2 : (tick ok st t).1.last_day = d := by rw [tick_last_day, hd]
    rw [runTicks_cons]
    have hmemex : execId umo tid d h m ∈ st.executed_tasks → st.last_day = d →
        execId umo tid d h m ∈ accPre.executed := by
      intro hmem hld
      rw [hex0, if_neg (by rw [hd, hld]; exact fun hc => hc rfl)]
      exact List.mem_append_left _ hmem
    have keepCase :
        procEntry ok st.session_events t (dtDay t) umo accPre (tid, task) =
          { accPre with kept := accPre.kept ++ [(tid, task)] } →
        ((execId umo tid d h m ∈ st.executed_tasks ∧ st.last_day = d →
           dispsFor ((tick ok st t).2 ++ (runTicks ok (tick ok st t).1 ts).2) umo tid = []) ∧
         (dispsFor ((tick ok st t).2 ++ (runTicks ok (tick ok st t).1 ts).2) umo tid).length
           ≤ 1) := by
      intro heq
      rw [heq] at hdisp hlook hexec
      have h0 : dispsFor (tick ok st t).2 umo tid = [] := by
        rw [hdisp]
        exact hdpre
      have hlook2 : taskLookup (tick ok st t).1 umo tid = some task := by
        rw [hlook]
        show getd (accPre.kept ++ [(tid, task)]) tid = some task
        rw [getd_append_left _ hkept, getd_cons_self]
      obtain ⟨ih1, ih2⟩ := ih (tick ok st t).1 task hWF2 hlook2 ht hpt hdays2
      constructor
      · intro ⟨hmem, hld⟩
        rw [dispsFor_append, h0, List.nil_append]
        refine ih1 ⟨?_, hld2⟩
        rw [hexec]
        refine List.mem_append_left _ ?_
        show execId umo tid d h m ∈ accPre.executed
        exact hmemex hmem hld
      · rw [dispsFor_append, h0, List.nil_append]
        exact ih2
    by_cases hs : task.status = "active"
    · by_cases hfire : dtHour t = h ∧ dtMinute t = m ∧
          execId umo tid (dtDay t) h m ∉ accPre.executed
      · -- the task fires at this tick and its marker enters the dedupe set
        rw [procEntry_fixed_fire ok st.session_events t (dtDay t) umo accPre tid task h m
          hs ht hpt hfire.1 hfire.2.1 hfire.2.2] at hdisp hlook hexec
        have h1 : dispsFor (tick ok st t).2 umo tid =
            [send_task_message accPre.infos st.session_events ok umo tid] := by
          rw [hdisp]
          show dispsFor (accPre.disps ++ [(umo, tid, _)]) umo tid = _
          rw [dispsFor_append, hdpre]
          simp [dispsFor]
        have hlook2 : taskLookup (tick ok st t).1 umo tid =
            some { task with last_run := some t } := by
          rw [hlook]
          show getd (accPre.kept ++ [(tid, { task with last_run := some t })]) tid = _
          rw [getd_append_left _ hkept, getd_cons_self]
        have hmem2 : execId umo tid d h m ∈ (tick ok st t).1.executed_tasks := by
          rw [hexec]
          refine List.mem_append_left _ ?_
          show execId umo tid d h m ∈ accPre.executed ++ [execId umo tid (dtDay t) h m]
          rw [hd]
          exact List.mem_append_right _ (List.mem_singleton.2 rfl)
        obtain ⟨ih1, _⟩ := ih (tick ok st t).1 { task with last_run := some t }
          hWF2 hlook2 ht hpt hdays2
        have hrest : dispsFor (runTicks ok (tick ok st t).1 ts).2 umo tid = [] :=
          ih1 ⟨hmem2, hld2⟩
        constructor
        · intro ⟨hmem, hld⟩
          exfalso
          refine hfire.2.2 ?_
          rw [hd]
          exact hmemex hmem hld
        · rw [dispsFor_append, h1, hrest]
          simp
      · exact keepCase (procEntry_fixed_nofire ok st.session_events t (dtDay t) umo
          accPre tid task h m hs ht hpt hfire)
    · exact keepCase (procEntry_paused ok st.session_events t (dtDay t) umo
        accPre tid task hs)

/-- Claim C2: a fixed task fires at a tick exactly when the wall-clock
hour:minute matches its configured time and its fire-marker for
`(session, id, day, hour, minute)` is not yet in the dedupe set (then the
marker is inserted and `last_run` set); over any set of ticks falling on
one calendar day, at most one dispatch occurs; and in the concrete scenario
a `20:30` task fires at 20:30:00 on day 100, not at 20:30:15 nor 20:31:00,
and fires again at 20:30:00 on day 101 because the dedupe set is cleared
before evaluation on the first tick of the new day (the surviving marker
set is exactly the new day's marker). -/
theorem C2 :
    (∀ (ok : String → Bool) (evs : List String) (now cd : Nat) (umo : String)
      (acc : ProcAcc) (tid : String) (task : TaskRec) (h m : Nat),
      task.status = "active" → task.type = "fixed" →
      parse_time task.time = some (h, m) →
      dtHour now = h → dtMinute now = m → execId umo tid cd h m ∉ acc.executed →
      procEntry ok evs now cd umo acc (tid, task) =
        { acc with
            kept := acc.kept ++ [(tid, { task with last_run := some now })],
            executed := acc.executed ++ [execId umo tid cd h m],
            disps := acc.disps ++ [(umo, tid, send_task_message acc.infos evs ok umo tid)] }) ∧
    (∀ (ok : String → Bool) (evs : List String) (now cd : Nat) (umo : String)
      (acc : ProcAcc) (tid : String) (task : TaskRec) (h m : Nat),
      task.status = "active" → task.type = "fixed" →
      parse_time task.time = some (h, m) →
      ¬(dtHour now = h ∧ dtMinute now = m ∧ execId umo tid cd h m ∉ acc.executed) →
      procEntry ok evs now cd umo acc (tid, task) =
        { acc with kept := acc.kept ++ [(tid, task)] }) ∧
    (∀ (ok : String → Bool) (ts : List Nat) (st : SchedState) (umo tid : String)
      (task : TaskRec) (h m d : Nat),
      tableWF st.tasks → taskLookup st umo tid = some task →
      task.type = "fixed" → parse_time task.time = some (h, m) →
      (∀ t ∈ ts, dtDay t = d) →
      (dispsFor (runTicks ok st ts).2 umo tid).length ≤ 1) ∧
    ((runTicks adapterAll c2State [c2t, c2t + 15, c2t + 60]).2 =
       [("s2", "1", some "go")] ∧
     (runTicks adapterAll c2State [c2t, c2t + 15, c2t + 60]).1.executed_tasks =
       ["s2_1_100_20_30"] ∧
     (runTicks adapterAll c2State [c2t, c2t + 15, c2t + 60, c2t + 86400]).2 =
       [("s2", "1", some "go"), ("s2", "1", some "go")] ∧
     (runTicks adapterAll c2State [c2t, c2t + 15, c2t + 60, c2t + 86400]).1.executed_tasks =
       ["s2_1_101_20_30"] ∧
     (runTicks adapterAll c2State [c2t, c2t + 15, c2t + 60, c2t + 86400]).1.last_day = 101) := by
  refine ⟨?_, ?_, ?_, by decide, by decide, by decide, by decide, by decide⟩
  · intro ok evs now cd umo acc tid task h m hs ht hpt hh hm hnm
    exact procEntry_fixed_fire ok evs now cd umo acc tid task h m hs ht hpt hh hm hnm
  · intro ok evs now cd umo acc tid task h m hs ht hpt hno
    exact procEntry_fixed_nofire ok evs now cd umo acc tid task h m hs ht hpt hno
  · intro ok ts st umo tid task h m d hWF hp ht hpt hdays
    exact (fixed_day_core ok umo tid h m d ts st task hWF hp ht hpt hdays).2

theorem C2_witness :
    (dispsFor (runTicks adapterAll c2State [c2t, c2t + 15, c2t + 60]).2 "s2" "1").length ≤ 1 :=
  C2.2.2.1 adapterAll [c2t, c2t + 15, c2t + 60] c2State "s2" "1" c2Task 20 30 100
    (by constructor <;> decide) rfl rfl rfl (by decide)

/-! ## The id counter: startup derivation, bounds, and preservation -/

theorem mem_tableIds {tbl : TaskTable} {p : String × TaskDict} {q : String × TaskRec}
    {n : Nat} (hp : p ∈ tbl) (hq : q ∈ p.2) (hn : decodeNat q.1 = some n) :
    n ∈ tableIds tbl := by
  rw [tableIds, List.mem_join]
  refine ⟨p.2.filterMap (fun e => decodeNat e.1), List.mem_map.2 ⟨p, hp, rfl⟩, ?_⟩
  rw [List.mem_filterMap]
  exact ⟨q, hq, hn⟩

theorem dict_fold_ids (d : TaskDict) : ∀ acc : Nat,
    d.foldl (fun a e =>
      match decodeNat e.1 with
      | some n => if a ≤ n then n + 1 else a
      | none => a) acc =
    (d.filterMap (fun e => decodeNat e.1)).foldl (fun a n => if a ≤ n then n + 1 else a) acc := by
  induction d with
  | nil => intro acc; rfl
  | cons e r ih =>
    intro acc
    rw [List.foldl_cons, List.filterMap_cons]
    cases hn : decodeNat e.1 with
    | none => exact ih acc
    | some n =>
      rw [List.foldl_cons]
      exact ih _

theorem initNextId_fold (tbl : TaskTable) : ∀ acc : Nat,
    tbl.foldl (fun acc s =>
      s.2.foldl (fun a e =>
        match decodeNat e.1 with
        | some n => if a ≤ n then n + 1 else a
        | none => a) acc) acc =
    (tableIds tbl).foldl (fun a n => if a ≤ n then n + 1 else a) acc := by
  induction tbl with
  | nil => intro acc; rfl
  | cons s r ih =>
    intro acc
    rw [List.foldl_cons]
    have hids : tableIds (s :: r) =
        s.2.filterMap (fun e => decodeNat e.1) ++ tableIds r := by
      simp [tableIds]
    rw [hids, List.foldl_append, ← dict_fold_ids s.2 acc]
    exact ih _

theorem step_eq_max : (fun (a n : Nat) => if a ≤ n then n + 1 else a) =
    (fun (a n : Nat) => max a (n + 1)) := by
  funext a n
  by_cases hle : a ≤ n
  · rw [if_pos hle]
    exact (Nat.max_eq_right (by omega)).symm
  · rw [if_neg hle]
    exact (Nat.max_eq_left (by omega)).symm

theorem foldl_max_acc_le (l : List Nat) : ∀ acc : Nat,
    acc ≤ l.foldl (fun a n => max a (n + 1)) acc := by
  induction l with
  | nil => intro acc; exact le_rfl
  | cons n r ih =>
    intro acc
    rw [List.foldl_cons]
    exact le_trans (Nat.le_max_left acc (n + 1)) (ih _)

theorem foldl_max_mem_lt (l : List Nat) : ∀ (acc n : Nat), n ∈ l →
    n + 1 ≤ l.foldl (fun a n => max a (n + 1)) acc := by
  induction l with
  | nil => intro acc n hn; simp at hn
  | cons m r ih =>
    intro acc n hn
    rw [List.foldl_cons]
    rcases List.mem_cons.1 hn with rfl | hn
    · exact le_trans (Nat.le_max_right acc (n + 1)) (foldl_max_acc_le r _)
    · exact ih _ n hn

theorem foldl_max_formula (l : List Nat) : ∀ acc : Nat,
    l.foldl (fun a n => max a (n + 1)) acc =
      max acc (l.foldr (fun n a => max (n + 1) a) 0) := by
  induction l with
  | nil => intro acc; simp
  | cons n r ih =>
    intro acc
    rw [List.foldl_cons, ih, List.foldr_cons, ← Nat.max_assoc]

theorem foldr_maxsucc_nonempty : ∀ (l : List Nat), l ≠ [] →
    l.foldr (fun n a => max (n + 1) a) 0 = l.foldr max 0 + 1 := by
  intro l
  induction l with
  | nil => intro hc; exact absurd rfl hc
  | cons n r ih =>
    intro _
    cases hr : r with
    | nil => simp
    | cons m r2 =>
      subst hr
      rw [List.foldr_cons, ih (List.cons_ne_nil _ _)]
      show max (n + 1) (List.foldr max 0 (m :: r2) + 1) = List.foldr max 0 (n :: m :: r2) + 1
      rw [List.foldr_cons]
      exact Nat.succ_max_succ n _

theorem initNextId_bound {tbl : TaskTable} {p : String × TaskDict} {q : String × TaskRec}
    {n : Nat} (hp : p ∈ tbl) (hq : q ∈ p.2) (hn : decodeNat q.1 = some n) :
    n < initNextId tbl := by
  have hmem := mem_tableIds hp hq hn
  rw [initNextId, initNextId_fold tbl 1, step_eq_max]
  exact foldl_max_mem_lt (tableIds tbl) 1 n hmem

theorem initNextId_eq_max {tbl : TaskTable} (h : tableIds tbl ≠ []) :
    initNextId tbl = (tableIds tbl).foldr max 0 + 1 := by
  rw [initNextId, initNextId_fold tbl 1, step_eq_max, foldl_max_formula,
    foldr_maxsucc_nonempty (tableIds tbl) h]
  exact Nat.max_eq_right (by omega)

theorem set_timing_cases (st : SchedState) (umo tt tv c : String) (now : Nat) :
    (set_timing st umo tt tv c now).1 = st ∨
    (set_timing st umo tt tv c now).1 = (registerTask st umo tt tv c now).1 := by
  rw [set_timing]
  split_ifs with e1 e2 e3 e4
  · exact Or.inl rfl
  · exact Or.inl rfl
  · cases hp : parse_time tv with
    | none => exact Or.inl rfl
    | some f => exact Or.inr rfl
  · cases hp : parseFloat tv with
    | none => exact Or.inl rfl
    | some f => exact Or.inr rfl
  · exact Or.inl rfl

theorem pause_shape (st : SchedState) (umo : String) (i : Nat) :
    (pause_task st umo i).1.next_id = st.next_id ∧
    ((pause_task st umo i).1.tasks = st.tasks ∨
      (pause_task st umo i).1.tasks =
        modd st.tasks umo
          (fun d2 => modd d2 (natStr i) (fun t => { t with status := "paused" }))) := by
  cases hg : getd st.tasks umo with
  | none => simp [pause_task, hg]
  | some d =>
    by_cases hc : (getd d (natStr i)).isSome
    · simp [pause_task, hg, hc]
    · simp [pause_task, hg, hc]

theorem enable_shape (st : SchedState) (umo : String) (i : Nat) :
    (enable_task st umo i).1.next_id = st.next_id ∧
    ((enable_task st umo i).1.tasks = st.tasks ∨
      (enable_task st umo i).1.tasks =
        modd st.tasks umo
          (fun d2 => modd d2 (natStr i) (fun t => { t with status := "active" }))) := by
  cases hg : getd st.tasks umo with
  | none => simp [enable_task, hg]
  | some d =>
    by_cases hc : (getd d (natStr i)).isSome
    · simp [enable_task, hg, hc]
    · simp [enable_task, hg, hc]

theorem cancel_shape (st : SchedState) (umo : String) (i : Nat) :
    (cancel_task st umo i).1.next_id = st.next_id ∧
    ((cancel_task st umo i).1.tasks = st.tasks ∨
      (cancel_task st umo i).1.tasks =
        modd st.tasks umo (fun d2 => deld d2 (natStr i))) := by
  cases hg : getd st.tasks umo with
  | none => simp [cancel_task, hg]
  | some d =>
    by_cases hc : (getd d (natStr i)).isSome
    · simp [cancel_task, hg, hc]
    · simp [cancel_task, hg, hc]

theorem edit_shape (st : SchedState) (umo : String) (i : Nat) (c : String) :
    (edit_info st umo i c).1.next_id = st.next_id ∧
    (edit_info st umo i c).1.tasks = st.tasks := by
  by_cases hc : (taskLookup st umo (natStr i)).isSome
  · simp [edit_info, hc]
  · simp [edit_info, hc]

theorem clear_shape (st : SchedState) (umo : String) (i : Nat) :
    (clear_content st umo i).1.next_id = st.next_id ∧
    (clear_content st umo i).1.tasks = st.tasks := by
  cases hg : getd st.infos umo with
  | none => simp [clear_content, hg]
  | some d =>
    by_cases hc : (getd d (natStr i)).isSome
    · simp [clear_content, hg, hc]
    · simp [clear_content, hg, hc]

theorem keptRel_entry_key {d K : TaskDict} (h : keptRel d K) {q : String × TaskRec}
    (hq : q ∈ K) : ∃ q0 ∈ d, q0.1 = q.1 := by
  have h1 : q.1 ∈ K.map Prod.fst := List.mem_map.2 ⟨q, hq, rfl⟩
  have h2 : q.1 ∈ d.map Prod.fst := (keptRel_keys_sublist h).subset h1
  obtain ⟨q0, hq0, he⟩ := List.mem_map.1 h2
  exact ⟨q0, hq0, he⟩

theorem idInv_tick (ok : String → Bool) (st : SchedState) (now : Nat)
    (h : idInv st) : idInv (tick ok st now).1 := by
  intro p hp q hq n hn
  obtain ⟨p0, hp0, hkey, hkR⟩ := tableRel_mem (tick_tasks_rel ok st now) hp
  obtain ⟨q0, hq0, he⟩ := keptRel_entry_key hkR hq
  rw [tick_next_id]
  exact h p0 hp0 q0 hq0 n (by rw [he]; exact hn)

theorem idInv_registerTask (st : SchedState) (umo tt tv c : String) (now : Nat)
    (h : idInv st) : idInv (registerTask st umo tt tv c now).1 := by
  have htasks : (registerTask st umo tt tv c now).1.tasks =
      modd (if (getd st.tasks umo).isSome then st.tasks else st.tasks ++ [(umo, [])]) umo
        (fun d => setd d (natStr st.next_id) ⟨tt, tv, "active", now, none, umo⟩) := rfl
  have hnid : (registerTask st umo tt tv c now).1.next_id = st.next_id + 1 := rfl
  have hmem1 : ∀ p : String × TaskDict,
      p ∈ (if (getd st.tasks umo).isSome then st.tasks else st.tasks ++ [(umo, [])]) →
      p ∈ st.tasks ∨ p = (umo, []) := by
    intro p hp
    by_cases hc : (getd st.tasks umo).isSome
    · rw [if_pos hc] at hp
      exact Or.inl hp
    · rw [if_neg hc] at hp
      rcases List.mem_append.1 hp with hp | hp
      · exact Or.inl hp
      · exact Or.inr (List.mem_singleton.1 hp)
  intro p hp q hq n hn
  rw [hnid]
  rw [htasks] at hp
  rcases mem_modd hp with hp | ⟨v, hv, rfl⟩
  · rcases hmem1 p hp with hp | rfl
    · exact Nat.lt_succ_of_lt (h p hp q hq n hn)
    · simp at hq
  · simp only at hq
    rcases mem_setd hq with hq | rfl
    · rcases hmem1 (umo, v) hv with hv2 | hv2
      · exact Nat.lt_succ_of_lt (h (umo, v) hv2 q hq n hn)
      · injection hv2 with _ hv3
        rw [hv3] at hq
        simp at hq
    · simp only at hn
      rw [decodeNat_natStr] at hn
      injection hn with hn
      omega

theorem idInv_applyOp (st : SchedState) (op : Op) (h : idInv st) :
    idInv (applyOp st op) := by
  cases op with
  | tickOp ok now => exact idInv_tick ok st now h
  | registerOp umo tt tv c now =>
    show idInv (set_timing st umo tt tv c now).1
    rcases set_timing_cases st umo tt tv c now with heq | heq
    · rw [heq]
      exact h
    · rw [heq]
      exact idInv_registerTask st umo tt tv c now h
  | cancelOp umo i =>
    show idInv (cancel_task st umo i).1
    obtain ⟨hnid, hts⟩ := cancel_shape st umo i
    intro p hp q hq n hn
    rw [hnid]
    rcases hts with hts | hts
    · rw [hts] at hp
      exact h p hp q hq n hn
    · rw [hts] at hp
      rcases mem_modd hp with hp | ⟨v, hv, rfl⟩
      · exact h p hp q hq n hn
      · exact h (umo, v) hv q (mem_deld hq) n hn
  | pauseOp umo i =>
    show idInv (pause_task st umo i).1
    obtain ⟨hnid, hts⟩ := pause_shape st umo i
    intro p hp q hq n hn
    rw [hnid]
    rcases hts with hts | hts
    · rw [hts] at hp
      exact h p hp q hq n hn
    · rw [hts] at hp
      rcases mem_modd hp with hp | ⟨v, hv, rfl⟩
      · exact h p hp q hq n hn
      · simp only at hq
        rcases mem_modd hq with hq | ⟨w, hw, rfl⟩
        · exact h (umo, v) hv q hq n hn
        · exact h (umo, v) hv (natStr i, w) hw n hn
  | enableOp umo i =>
    show idInv (enable_task st umo i).1
    obtain ⟨hnid, hts⟩ := enable_shape st umo i
    intro p hp q hq n hn
    rw [hnid]
    rcases hts with hts | hts
    · rw [hts] at hp
      exact h p hp q hq n hn
    · rw [hts] at hp
      rcases mem_modd hp with hp | ⟨v, hv, rfl⟩
      · exact h p hp q hq n hn
      · simp only at hq
        rcases mem_modd hq with hq | ⟨w, hw, rfl⟩
        · exact h (umo, v) hv q hq n hn
        · exact h (umo, v) hv (natStr i, w) hw n hn
  | editOp umo i c =>
    show idInv (edit_info st umo i c).1
    obtain ⟨hnid, hts⟩ := edit_shape st umo i c
    intro p hp q hq n hn
    rw [hnid]
    rw [hts] at hp
    exact h p hp q hq n hn
  | clearOp umo i =>
    show idInv (clear_content st umo i).1
    obtain ⟨hnid, hts⟩ := clear_shape st umo i
    intro p hp q hq n hn
    rw [hnid]
    rw [hts] at hp
    exact h p hp q hq n hn

theorem nextId_mono (st : SchedState) (op : Op) :
    st.next_id ≤ (applyOp st op).next_id := by
  cases op with
  | tickOp ok now => exact le_of_eq (tick_next_id ok st now).symm
  | registerOp umo tt tv c now =>
    show st.next_id ≤ (set_timing st umo tt tv c now).1.next_id
    rcases set_timing_cases st umo tt tv c now with heq | heq
    · rw [heq]
    · rw [heq]
      show st.next_id ≤ st.next_id + 1
      omega
  | cancelOp umo i => exact le_of_eq (cancel_shape st umo i).1.symm
  | pauseOp umo i => exact le_of_eq (pause_shape st umo i).1.symm
  | enableOp umo i => exact le_of_eq (enable_shape st umo i).1.symm
  | editOp umo i c => exact le_of_eq (edit_shape st umo i c).1.symm
  | clearOp umo i => exact le_of_eq (clear_shape st umo i).1.symm

/-- Claim C7: ids come from one global counter spanning all sessions: every
stored id is below the counter (an invariant every operation preserves and
a restart re-establishes), so a freshly allocated id collides with nothing
in the whole store and is never a reused one; the counter never decreases;
and at startup it is re-derived from the loaded table as
`max(existing ids) + 1` (1 on an empty table). -/
theorem C7 :
    (∀ (tbl : TaskTable) (p : String × TaskDict) (q : String × TaskRec) (n : Nat),
      p ∈ tbl → q ∈ p.2 → decodeNat q.1 = some n → n < initNextId tbl) ∧
    (∀ tbl : TaskTable, tableIds tbl ≠ [] →
      initNextId tbl = (tableIds tbl).foldr max 0 + 1) ∧
    (∀ st : SchedState, idInv st →
      ∀ p ∈ st.tasks, ∀ q ∈ p.2, q.1 ≠ natStr st.next_id) ∧
    (∀ (st : SchedState) (op : Op), idInv st → idInv (applyOp st op)) ∧
    (∀ (st : SchedState) (op : Op), st.next_id ≤ (applyOp st op).next_id) ∧
    (∀ (tbl : TaskTable) (itbl : InfoTable) (d0 : Nat), idInv (initState tbl itbl d0)) := by
  refine ⟨?_, ?_, ?_, ?_, ?_, ?_⟩
  · intro tbl p q n hp hq hn
    exact initNextId_bound hp hq hn
  · intro tbl h
    exact initNextId_eq_max h
  · intro st h p hp q hq hc
    have := h p hp q hq st.next_id (by rw [hc]; exact decodeNat_natStr st.next_id)
    omega
  · intro st op h
    exact idInv_applyOp st op h
  · intro st op
    exact nextId_mono st op
  · intro tbl itbl d0 p hp q hq n hn
    exact initNextId_bound hp hq hn

theorem C7_witness :
    initNextId [("s1", [("1", c1Task)]), ("s2", [("4", c2Task), ("2", c3Task)])] =
      4 + 1 :=
  (C7.2.1 [("s1", [("1", c1Task)]), ("s2", [("4", c2Task), ("2", c3Task)])] (by decide)).trans
    (by decide)

end Timtip
